import Mathlib

/-!
Verification of the layered (overlay) read-only filesystem in `layer.go` of
the `ocifs` repository.

The Go source is shallowly embedded: each underlying layer is modelled as a
record of (pure) functions returning `Except`-style results, paths are the
slash-separated strings the Go code manipulates, and the stateful directory
merge cursor (`dirReader`) is modelled by explicit state passing.  Go errors
are modelled by `FsError`; `errors.Is(err, fs.ErrNotExist)` corresponds to
equality with `FsError.notExist`.
-/

/-- Model of a Go `error` value produced by an underlying layer or by the
overlay itself.  `notExist` plays the role of `fs.ErrNotExist`, `invalid`
of `fs.ErrInvalid`, and `other` stands for any other error value
(permission, I/O failure, ...), tagged by a code so distinct errors can be
told apart. -/
inductive FsError where
  | notExist
  | invalid
  | other (code : Nat)
  deriving DecidableEq, Repr

/-- An error returned by a top-level operation of the layered filesystem:
either an `fs.PathError{Op, Path, Err}` built by the overlay itself, or an
underlying layer's error surfaced unchanged. -/
inductive OpError where
  | pathError (op : String) (name : String) (e : FsError)
  | layerError (e : FsError)
  deriving DecidableEq, Repr

/-- `whiteoutPrefix = ".wh."` from the source (the constant's Go name ends in
a word we avoid in Lean identifiers, hence `whiteoutMark`). -/
def whiteoutMark : String := ".wh."

/-- `whiteoutOpaque = ".wh..wh..opq"` from the source. -/
def whiteoutOpaque : String := ".wh..wh..opq"

/-- `strings.HasPrefix name whiteoutPrefix`: the name carries the single-entry
whiteout marker prefix. -/
def whMarked (s : String) : Bool := List.isPrefixOf whiteoutMark.data s.data

/-- `name[len(whiteoutPrefix):]`: strip the 4-byte marker `".wh."` (all its
characters are ASCII, so byte count and character count agree). -/
def stripWh (s : String) : String := String.mk (s.data.drop 4)

/-- Split a string at `'/'` characters; mirrors how both `fs.ValidPath` and
the walk in `lookup` cut the path into slash-separated elements.  (Defined by
structural recursion over the characters so that it evaluates by `decide`;
`String.splitOn` has the same behaviour but does not kernel-reduce.) -/
def splitCompsAux : List Char → List Char → List String
  | [], acc => [String.mk acc.reverse]
  | c :: cs, acc =>
    if c = '/' then String.mk acc.reverse :: splitCompsAux cs []
    else splitCompsAux cs (c :: acc)

/-- The slash-separated components of a path string. -/
def splitComps (s : String) : List String := splitCompsAux s.data []

/-- Join path components with `'/'`; inverse of `splitComps` on valid paths,
used to form the prefixes `path[:walk]` that `lookup` hands to `fs.Stat`. -/
def joinPath : List String → String
  | [] => ""
  | [x] => x
  | x :: xs => x ++ "/" ++ joinPath xs

/-- `fs.ValidPath`: `"."` is valid, otherwise every slash-separated element
must be nonempty and distinct from `"."` and `".."`.  (UTF-8 validity is
automatic for Lean strings.) -/
def validPath (s : String) : Bool :=
  s = "." || (splitComps s).all fun e => e ≠ "" && e ≠ "." && e ≠ ".."

/-- The successive component prefixes of the path, i.e. the values taken by
`path[:walk]` in the walk loop of `lookup`: for `"a/b/c"` these are
`["a"], ["a","b"], ["a","b","c"]` (as component lists). -/
def compPrefixes (comps : List String) : List (List String) :=
  (List.range comps.length).map fun k => comps.take (k + 1)

/-- `whiteout(name)` from the source: derive the single-entry whiteout path
and the opaque whiteout path for `name` from its parent directory and base
name (`path.Split` / `path.Join`, which for valid relative paths amount to
splitting off the last component). -/
def whiteoutNames (p : List String) : String × String :=
  (joinPath (p.dropLast ++ [whiteoutMark ++ p.getLastD ""]),
   joinPath (p.dropLast ++ [whiteoutOpaque]))

/-- An underlying layer (`fs.FS`).  Each capability that `layer.go` uses is a
function from a path string to a result:
* `stat p` models `fs.Stat(layer, p)`: `.ok b` is success with `IsDir() = b`,
  `.error e` a stat failure;
* `openFile p` models `layer.Open(p)`, returning an abstract handle id;
* `readLink p` models `fslink.ReadLink(layer, p)`;
* `subFS p` models `fslink.Sub(layer, p)`, returning an abstract id for the
  rebased filesystem (its further behaviour is irrelevant to the claims). -/
structure Layer where
  stat : String → Except FsError Bool
  openFile : String → Except FsError Nat
  readLink : String → Except FsError String
  subFS : String → Except FsError Nat

/-- `hasOneOf(fsys, names...)`: stat each candidate name in order; the first
success yields `true`, `fs.ErrNotExist` moves on to the next name, any other
error is returned. -/
def hasOneOf (l : Layer) : List String → Except FsError Bool
  | [] => .ok false
  | n :: ns =>
    match l.stat n with
    | .ok _ => .ok true
    | .error e => if e = FsError.notExist then hasOneOf l ns else .error e

/-- The inner candidate scan of `lookup` for one path prefix `p` (the loop
`for i := 0; i < len(visibleLayers);` at layer.go:133-165).  `isTop` records
whether the scan is still at index `i = 0`, i.e. no candidate above the
current one has been kept at this prefix level:
* a layer whose stat fails with not-exist is dropped (`copy`/shrink);
* any other stat error aborts the whole lookup;
* a non-directory keeps the layer as the sole survivor when it is the topmost
  remaining candidate (`i == 0` ⇒ `i++` before truncating) and otherwise
  drops it and everything below (`visibleLayers[:i]`);
* a directory with a whiteout marker (`hasOneOf`) is kept but everything
  below is dropped (`visibleLayers[:i+1]`);
* a plain directory is kept and scanning continues below it. -/
def scanLayers (p w1 wAll : String) : List Layer → Bool → Except FsError (List Layer)
  | [], _ => .ok []
  | l :: ls, isTop =>
    match l.stat p with
    | .error e =>
      if e = FsError.notExist then scanLayers p w1 wAll ls isTop else .error e
    | .ok isDir =>
      if !isDir then .ok (if isTop then [l] else [])
      else
        match hasOneOf l [w1, wAll] with
        | .error e => .error e
        | .ok true => .ok [l]
        | .ok false =>
          match scanLayers p w1 wAll ls false with
          | .error e => .error e
          | .ok rest => .ok (l :: rest)

/-- The outer walk of `lookup` over the successive path prefixes
(layer.go:124-167).  The loop also stops as soon as the candidate list is
empty (`len(visibleLayers) > 0` in the loop condition). -/
def lookupWalk : List (List String) → List Layer → Except FsError (List Layer)
  | [], vis => .ok vis
  | p :: ps, vis =>
    if vis.isEmpty then .ok vis
    else
      match scanLayers (joinPath p) (whiteoutNames p).1 (whiteoutNames p).2 vis true with
      | .error e => .error e
      | .ok vis' => lookupWalk ps vis'

/-- `layerFS.lookup(op, name)` (layer.go:110-173): reject invalid paths with
`&fs.PathError{op, name, fs.ErrNotExist}`, resolve `"."` to the full stack,
walk the prefixes, and report not-exist when no visible layer remains. -/
def lookup (layers : List Layer) (op name : String) : Except OpError (List Layer) :=
  if validPath name = false then .error (.pathError op name .notExist)
  else if name = "." then .ok layers
  else
    match lookupWalk (compPrefixes (splitComps name)) layers with
    | .error e => .error (.layerError e)
    | .ok vis =>
      if vis.isEmpty then .error (.pathError op name .notExist) else .ok vis

/-- The open loop of `layerFS.Open` (layer.go:62-68): open the visible layers
in priority order, stopping at the first failure; returns the error (if any)
together with the handles opened so far (the `files` slice). -/
def openLoop (name : String) : List Layer → List Nat → Option FsError × List Nat
  | [], acc => (none, acc)
  | l :: ls, acc =>
    match l.openFile name with
    | .error e => (some e, acc)
    | .ok fd => openLoop name ls (acc ++ [fd])

/-- Outcome of `layerFS.Open`: the result, plus the list of underlying
handles that were closed by the deferred cleanup before returning (the
`defer` at layer.go:56-60 closes everything in `files` unless the success
path reset `files` to nil at layer.go:70). -/
structure OpenOutcome where
  result : Except OpError (List Nat)
  closed : List Nat
  deriving Repr

/-- `layerFS.Open(name)` (layer.go:49-72). -/
def layerFSOpen (layers : List Layer) (name : String) : OpenOutcome :=
  match lookup layers "open" name with
  | .error e => ⟨.error e, []⟩
  | .ok vis =>
    match openLoop name vis [] with
    | (some e, acc) => ⟨.error (.layerError e), acc⟩
    | (none, acc) => ⟨.ok acc, []⟩

/-- The rebase loop of `layerFS.Sub`. -/
def subAll (name : String) : List Layer → Except OpError (List Nat)
  | [] => .ok []
  | l :: ls =>
    match l.subFS name with
    | .error e => .error (.layerError e)
    | .ok s =>
      match subAll name ls with
      | .error e => .error e
      | .ok rest => .ok (s :: rest)

/-- `layerFS.Sub(name)` (layer.go:74-87): resolve visibility with op
`"open"`, then rebase every visible layer, surfacing any rebase error. -/
def layerFSSub (layers : List Layer) (name : String) : Except OpError (List Nat) :=
  match lookup layers "open" name with
  | .error e => .error e
  | .ok vis => subAll name vis

/-- The per-layer loop of `layerFS.ReadLink` (layer.go:95-105): first
successful answer wins; not-exist and invalid are skipped; any other error is
surfaced; if no layer answers, `&fs.PathError{"readlink", name, ErrNotExist}`. -/
def readLinkScan (name : String) : List Layer → Except OpError String
  | [] => .error (.pathError "readlink" name .notExist)
  | l :: ls =>
    match l.readLink name with
    | .ok link => .ok link
    | .error .notExist => readLinkScan name ls
    | .error .invalid => readLinkScan name ls
    | .error e => .error (.layerError e)

/-- `layerFS.ReadLink(name)` (layer.go:89-108). -/
def layerFSReadLink (layers : List Layer) (name : String) : Except OpError String :=
  match lookup layers "readlink" name with
  | .error e => .error e
  | .ok vis => readLinkScan name vis

/-- `fs.FileInfo` as far as `layer.go` consumes it: the mode word (a
`fs.FileMode`, i.e. a 32-bit word whose low 9 bits are the permission bits)
and the directory flag. -/
structure FileInfo where
  mode : Nat
  isDir : Bool
  deriving DecidableEq, Repr

/-- The complement of `fs.FileMode(0222)` inside a 32-bit word:
`2^32 - 1 - 0o222`.  (`0o222 = 146` selects the owner/group/other write
permission bits.) -/
def modeMask : Nat := 4294967149

/-- `layerInfo.Mode()` (layer.go:280-286): `mode &= ^fs.FileMode(0222)`. -/
def layerInfoMode (m : Nat) : Nat := m &&& modeMask

/-- `layerFile.Stat()` (layer.go:214-220): stat of the topmost underlying
file (`f.layers[0]`), wrapped so that `Mode()` masks the write bits; `s0` is
the result of that underlying `Stat` call. -/
def layerFileStat (s0 : Except FsError FileInfo) : Except FsError FileInfo :=
  match s0 with
  | .error e => .error e
  | .ok s => .ok ⟨layerInfoMode s.mode, s.isDir⟩

/-- One underlying directory stream (an `fs.ReadDirFile` of one layer).
`entries` are the names not yet read; `terr` is an optional error that the
underlying implementation reports once the entries are consumed (in place of
`io.EOF`), modelling a failing underlying `ReadDir`. -/
structure DirStream where
  entries : List String
  terr : Option FsError
  deriving DecidableEq, Repr

/-- Result error of one underlying `ReadDir` call: `io.EOF` or a real error. -/
inductive ReadErr where
  | eof
  | fserr (e : FsError)
  deriving DecidableEq, Repr

/-- One call `files[0].ReadDir(count)` on an underlying stream, following the
`fs.ReadDirFile` contract as implemented by `fstest.MapFS` (which the
repository's test exercises): `count <= 0` returns every remaining entry in
one batch together with any pending error (`nil` otherwise) and exhausts the
stream; `count > 0` returns up to `count` entries with a `nil` error, or an
empty batch with `io.EOF` (or the pending error) once the stream is dry. -/
def DirStream.readDir (s : DirStream) (count : Int) :
    (List String × Option ReadErr) × DirStream :=
  if count ≤ 0 then ((s.entries, s.terr.map ReadErr.fserr), ⟨[], none⟩)
  else if s.entries.isEmpty then
    (([], some (match s.terr with | some e => ReadErr.fserr e | none => ReadErr.eof)), s)
  else ((s.entries.take count.toNat, none), ⟨s.entries.drop count.toNat, s.terr⟩)

/-- The `for _, entry := range entries` body of `dirReader.scan`
(layer.go:304-321), processing one batch of raw entries:
* a name already in the durable mask set is skipped;
* the opaque marker truncates the layer list (recorded here as the `Bool`
  component becoming `true`) and is itself neither recorded nor emitted;
* a `.wh.`-marked name records the stripped name in the pending batch
  (`dir.names`) and is not emitted;
* every other name is recorded in the pending batch and emitted.
Arguments and results are `(names, opq, emitted)`: the pending-name batch,
the truncation flag, and the entries emitted to the caller so far. -/
def processEntries (masks : List String) :
    List String → List String → Bool → List String → List String × Bool × List String
  | [], names, opq, emitted => (names, opq, emitted)
  | e :: es, names, opq, emitted =>
    if e ∈ masks then processEntries masks es names opq emitted
    else if e = whiteoutOpaque then processEntries masks es names true emitted
    else if whMarked e then processEntries masks es (names ++ [stripWh e]) opq emitted
    else processEntries masks es (names ++ [e]) opq (emitted ++ [e])

/-- The error result of `dirReader.scan`: `nil`, `io.EOF`, or a propagated
underlying error. -/
inductive ScanRet where
  | ok
  | eof
  | err (e : FsError)
  deriving DecidableEq, Repr

/-- How the inner `for {}` loop of `scan` was left: `broke` for the `break`
at layer.go:324 (the current layer is exhausted), `ret r` for the early
`return err` at layer.go:327. -/
inductive InnerExit where
  | broke
  | ret (r : ScanRet)
  deriving DecidableEq, Repr

/-- Convert the error of the last underlying `ReadDir` call into the value of
the early `return err` (a `nil` error means the budget was filled). -/
def retOf : Option ReadErr → ScanRet
  | none => .ok
  | some .eof => .eof
  | some (.fserr e) => .err e

/-- State in which the inner loop of `scan` leaves the current layer. -/
structure InnerOut where
  stream : DirStream
  names : List String
  opq : Bool
  emitted : List String
  exit : InnerExit
  deriving DecidableEq, Repr

theorem pe_em_len (masks : List String) (es names : List String) (opq : Bool)
    (emitted : List String) :
    (processEntries masks es names opq emitted).2.2.length ≤ emitted.length + es.length := by
  induction es generalizing names opq emitted with
  | nil => simp [processEntries]
  | cons e es ih =>
    simp only [processEntries, List.length_cons]
    split
    · have h1 := ih names opq emitted
      omega
    · split
      · have h1 := ih names true emitted
        omega
      · split
        · have h1 := ih (names ++ [stripWh e]) opq emitted
          omega
        · have h1 := ih (names ++ [e]) opq (emitted ++ [e])
          simp only [List.length_append, List.length_cons, List.length_nil] at h1
          omega

theorem readDir_step (s : DirStream) (c : Int) (hc : 0 < c)
    (hnone : (s.readDir c).1.2 = none) :
    (s.readDir c).1.1.length ≤ c.toNat ∧
      (s.readDir c).2.entries.length < s.entries.length := by
  rw [DirStream.readDir] at hnone ⊢
  by_cases h1 : c ≤ 0
  · exact absurd h1 (by omega)
  · rw [if_neg h1] at hnone ⊢
    by_cases h2 : s.entries.isEmpty
    · rw [if_pos h2] at hnone
      simp at hnone
    · rw [if_neg h2] at hnone ⊢
      refine ⟨?_, ?_⟩
      · simp only [List.length_take]
        omega
      · have hne : s.entries ≠ [] := by simpa [List.isEmpty_iff] using h2
        have hl : 0 < s.entries.length := List.length_pos.mpr hne
        have hc2 : 0 < c.toNat := by omega
        simp only [List.length_drop]
        omega

theorem budget_step (n : Nat) (masks : List String) (s : DirStream) (names : List String)
    (opq : Bool) (emitted : List String) (h : n = 0 ∨ emitted.length < n)
    (batch : List String) (rerr : Option ReadErr) (s' : DirStream)
    (names' : List String) (opq' : Bool) (emitted' : List String)
    (hrd : s.readDir ((n : Int) - emitted.length) = ((batch, rerr), s'))
    (hpe : processEntries masks batch names opq emitted = (names', opq', emitted'))
    (hbreak : ¬(n = 0 ∨ rerr = some ReadErr.eof))
    (hret : ¬(n = emitted'.length ∨ rerr ≠ none)) :
    n = 0 ∨ emitted'.length < n := by
  rcases h with h0 | hlt
  · exact absurd (Or.inl h0) hbreak
  · right
    have hnone : rerr = none := by
      by_contra hh
      exact hret (Or.inr hh)
    have hc : 0 < (n : Int) - emitted.length := by omega
    have hstep := readDir_step s ((n : Int) - emitted.length) hc
      (by rw [hrd]; exact hnone)
    rw [hrd] at hstep
    have hlen := pe_em_len masks batch names opq emitted
    rw [hpe] at hlen
    have hlen' : emitted'.length ≤ emitted.length + batch.length := by
      simpa using hlen
    have hne : n ≠ emitted'.length := fun hh => hret (Or.inl hh)
    simp only at hstep
    omega

/-- The inner `for {}` loop of `dirReader.scan` (layer.go:301-329) for the
current layer: read a batch of `n - dirents` entries (`dirents` is the count
of entries emitted so far in this `scan` call, which is `emitted.length`
because the only caller's callback appends exactly one entry per emission),
process the batch, then `break` when `n == 0` or the layer reports `io.EOF`,
`return err` when the budget is met or the read failed, and loop otherwise.
The invariant `h` (the budget is never already met when the loop reads) holds
on every path `scan` actually takes and makes the recursion well-founded. -/
def scanInner (n : Nat) (masks : List String) (s : DirStream) (names : List String)
    (opq : Bool) (emitted : List String) (h : n = 0 ∨ emitted.length < n) : InnerOut :=
  match hrd : s.readDir ((n : Int) - emitted.length) with
  | ((batch, rerr), s') =>
    match hpe : processEntries masks batch names opq emitted with
    | (names', opq', emitted') =>
      if hbreak : n = 0 ∨ rerr = some ReadErr.eof then
        ⟨s', names', opq', emitted', .broke⟩
      else if hret : n = emitted'.length ∨ rerr ≠ none then
        ⟨s', names', opq', emitted', .ret (retOf rerr)⟩
      else
        scanInner n masks s' names' opq' emitted'
          (budget_step n masks s names opq emitted h batch rerr s' names' opq' emitted'
            hrd hpe hbreak hret)
termination_by s.entries.length
decreasing_by
  rcases h with h0 | hlt
  · exact absurd (Or.inl h0) hbreak
  · have hnone : rerr = none := by
      by_contra hh
      exact hret (Or.inr hh)
    have hc : 0 < (n : Int) - emitted.length := by omega
    have hstep := readDir_step s ((n : Int) - emitted.length) hc
      (by rw [hrd]; exact hnone)
    rw [hrd] at hstep
    exact hstep.2

theorem scanInner_eq_broke (n : Nat) (masks : List String) (s : DirStream)
    (names : List String) (opq : Bool) (emitted : List String)
    (h : n = 0 ∨ emitted.length < n)
    (batch : List String) (rerr : Option ReadErr) (s' : DirStream)
    (names' : List String) (opq' : Bool) (emitted' : List String)
    (hrd : s.readDir ((n : Int) - emitted.length) = ((batch, rerr), s'))
    (hpe : processEntries masks batch names opq emitted = (names', opq', emitted'))
    (hbreak : n = 0 ∨ rerr = some ReadErr.eof) :
    scanInner n masks s names opq emitted h = ⟨s', names', opq', emitted', .broke⟩ := by
  rw [scanInner]
  split
  rename_i batch1 rerr1 s1 heq1
  have hco := hrd.symm.trans heq1
  simp only [Prod.mk.injEq] at hco
  obtain ⟨⟨hb, hr⟩, hs⟩ := hco
  subst hb hr hs
  split
  rename_i names1 opq1 emitted1 heq2
  have hco := hpe.symm.trans heq2
  simp only [Prod.mk.injEq] at hco
  obtain ⟨ha, hbq, hc⟩ := hco
  subst ha hbq hc
  rw [dif_pos hbreak]

theorem scanInner_eq_ret (n : Nat) (masks : List String) (s : DirStream)
    (names : List String) (opq : Bool) (emitted : List String)
    (h : n = 0 ∨ emitted.length < n)
    (batch : List String) (rerr : Option ReadErr) (s' : DirStream)
    (names' : List String) (opq' : Bool) (emitted' : List String)
    (hrd : s.readDir ((n : Int) - emitted.length) = ((batch, rerr), s'))
    (hpe : processEntries masks batch names opq emitted = (names', opq', emitted'))
    (hbreak : ¬(n = 0 ∨ rerr = some ReadErr.eof))
    (hret : n = emitted'.length ∨ rerr ≠ none) :
    scanInner n masks s names opq emitted h = ⟨s', names', opq', emitted', .ret (retOf rerr)⟩ := by
  rw [scanInner]
  split
  rename_i batch1 rerr1 s1 heq1
  have hco := hrd.symm.trans heq1
  simp only [Prod.mk.injEq] at hco
  obtain ⟨⟨hb, hr⟩, hs⟩ := hco
  subst hb hr hs
  split
  rename_i names1 opq1 emitted1 heq2
  have hco := hpe.symm.trans heq2
  simp only [Prod.mk.injEq] at hco
  obtain ⟨ha, hbq, hc⟩ := hco
  subst ha hbq hc
  rw [dif_neg hbreak, dif_pos hret]

theorem scanInner_eq_step (n : Nat) (masks : List String) (s : DirStream)
    (names : List String) (opq : Bool) (emitted : List String)
    (h : n = 0 ∨ emitted.length < n)
    (batch : List String) (rerr : Option ReadErr) (s' : DirStream)
    (names' : List String) (opq' : Bool) (emitted' : List String)
    (hrd : s.readDir ((n : Int) - emitted.length) = ((batch, rerr), s'))
    (hpe : processEntries masks batch names opq emitted = (names', opq', emitted'))
    (hbreak : ¬(n = 0 ∨ rerr = some ReadErr.eof))
    (hret : ¬(n = emitted'.length ∨ rerr ≠ none))
    (h' : n = 0 ∨ emitted'.length < n) :
    scanInner n masks s names opq emitted h = scanInner n masks s' names' opq' emitted' h' := by
  rw [scanInner]
  split
  rename_i batch1 rerr1 s1 heq1
  have hco := hrd.symm.trans heq1
  simp only [Prod.mk.injEq] at hco
  obtain ⟨⟨hb, hr⟩, hs⟩ := hco
  subst hb hr hs
  split
  rename_i names1 opq1 emitted1 heq2
  have hco := hpe.symm.trans heq2
  simp only [Prod.mk.injEq] at hco
  obtain ⟨ha, hbq, hc⟩ := hco
  subst ha hbq hc
  rw [dif_neg hbreak, dif_neg hret]

theorem readDir_eof_batch (s : DirStream) (c : Int)
    (heof : (s.readDir c).1.2 = some ReadErr.eof) : (s.readDir c).1.1 = [] := by
  rw [DirStream.readDir] at heof ⊢
  by_cases h1 : c ≤ 0
  · rw [if_pos h1] at heof
    cases h : s.terr <;> rw [h] at heof <;> simp at heof
  · rw [if_neg h1] at heof ⊢
    by_cases h2 : s.entries.isEmpty
    · rw [if_pos h2]
    · rw [if_neg h2] at heof
      simp at heof

theorem scanInner_broke_bound (n : Nat) (masks : List String) (s : DirStream)
    (names : List String) (opq : Bool) (emitted : List String)
    (h : n = 0 ∨ emitted.length < n) :
    (scanInner n masks s names opq emitted h).exit = InnerExit.broke →
      n = 0 ∨ (scanInner n masks s names opq emitted h).emitted.length < n := by
  refine scanInner.induct n masks
    (motive := fun s names opq emitted h =>
      (scanInner n masks s names opq emitted h).exit = InnerExit.broke →
        n = 0 ∨ (scanInner n masks s names opq emitted h).emitted.length < n)
    ?_ ?_ ?_ s names opq emitted h
  · intro s names opq emitted h batch rerr s' hrd names' opq' emitted' hpe hbreak hbr
    rw [scanInner_eq_broke n masks s names opq emitted h batch rerr s' names' opq' emitted'
      hrd hpe hbreak]
    rcases hbreak with h0 | heof
    · exact Or.inl h0
    · have hb : batch = [] := by
        have hx := readDir_eof_batch s ((n : Int) - emitted.length) (by rw [hrd]; exact heof)
        rw [hrd] at hx
        exact hx
      subst hb
      have hco : (names', opq', emitted') = (names, opq, emitted) := hpe.symm
      simp only [Prod.mk.injEq] at hco
      obtain ⟨-, -, hem⟩ := hco
      subst hem
      exact h
  · intro s names opq emitted h batch rerr s' hrd names' opq' emitted' hpe hbreak hret hbr
    rw [scanInner_eq_ret n masks s names opq emitted h batch rerr s' names' opq' emitted'
      hrd hpe hbreak hret] at hbr
    simp at hbr
  · intro s names opq emitted h batch rerr s' hrd names' opq' emitted' hpe hbreak hret ih hbr
    have hstep := scanInner_eq_step n masks s names opq emitted h batch rerr s' names' opq'
      emitted' hrd hpe hbreak hret
      (budget_step n masks s names opq emitted h batch rerr s' names' opq' emitted'
        hrd hpe hbreak hret)
    rw [hstep] at hbr ⊢
    exact ih hbr

/-- The mutable cursor state of `dirReader` (layer.go:288-292): the remaining
layer streams (`dir.files`), the pending per-layer batch of names
(`dir.names`), and the durable mask set (`dir.masks`, a Go map modelled as a
list whose membership is what matters). -/
structure DirReader where
  files : List DirStream
  names : List String
  masks : List String
  deriving DecidableEq, Repr

/-- `dir.masks[name] = struct{}{}` for every pending name (layer.go:333-335):
extend the mask set with the names not already present. -/
def insertAll (masks names : List String) : List String :=
  masks ++ names.filter fun x => !(masks.contains x)

/-- The outer `for len(dir.files) > 0` loop of `dirReader.scan`
(layer.go:300-338) together with the final `io.EOF` report
(layer.go:340-343).  Each iteration runs the inner loop on the current layer;
on `break` the pending names are committed to the durable mask set, the
pending batch is cleared and the cursor advances past the current layer
(which the opaque marker may meanwhile have made the last one); on an early
`return` the call ends with the masks and pending batch as they stand. -/
def scanOuter (n : Nat) (files : List DirStream) (names masks emitted : List String)
    (h : n = 0 ∨ emitted.length < n) : List String × ScanRet × DirReader :=
  match files with
  | [] =>
    (emitted, if emitted.length < n then ScanRet.eof else ScanRet.ok, ⟨[], names, masks⟩)
  | s :: rest =>
    match hout : scanInner n masks s names false emitted h with
    | ⟨s', names', opq', emitted', InnerExit.ret r⟩ =>
      (emitted', r, ⟨if opq' then [s'] else s' :: rest, names', masks⟩)
    | ⟨s', names', opq', emitted', InnerExit.broke⟩ =>
      scanOuter n (if opq' then [] else rest) [] (insertAll masks names') emitted'
        (by
          have hb := scanInner_broke_bound n masks s names false emitted h
          rw [hout] at hb
          exact hb rfl)
termination_by files.length
decreasing_by
  cases opq' <;> simp

/-- `dirReader.scan(n, f)` (layer.go:294-344), with the callback specialised
to the only one the source ever passes (layer.go:265-268), which appends each
emitted entry and never fails: the result is the list of emitted entry names,
the returned error (`nil`, `io.EOF` or a propagated layer error), and the
cursor state after the call.  `scan` is only ever entered with a fresh
`dirents = 0`, which establishes the budget invariant. -/
def dirScan (n : Nat) (dr : DirReader) : List String × ScanRet × DirReader :=
  scanOuter n dr.files dr.names dr.masks [] (by simp; omega)

/-- `layerFile.ReadDir(n)` (layer.go:251-270) acting on an already
materialised cursor: negative counts are clamped to `0` and the scan is
delegated to the cursor. -/
def layerReadDir (n : Int) (dr : DirReader) : List String × ScanRet × DirReader :=
  dirScan (if n < 0 then 0 else n.toNat) dr

/-- Reference merge of a whole directory view: what one error-free exhaustive
drain of the remaining layers emits, layer by layer.  Each layer's entries
are processed with the current mask set and the pending batch carried in from
the cursor (empty for all but the first layer); at the end of a layer the
pending names are committed and, if the opaque marker was seen, no further
layer contributes. -/
def mergeNames : List String → List String → List (List String) → List String
  | _, _, [] => []
  | masks, names, es :: rest =>
    match processEntries masks es names false [] with
    | (nm, opq, em) => em ++ (if opq then [] else mergeNames (insertAll masks nm) [] rest)

/-- The reference merge of a cursor state. -/
def mergeOf (dr : DirReader) : List String :=
  mergeNames dr.masks dr.names (dr.files.map DirStream.entries)

/-- A sequence of `ReadDir(k)` calls on the same cursor: returns the
concatenation of the emitted batches and the final cursor state. -/
def runCalls : List Nat → DirReader → List String × DirReader
  | [], dr => ([], dr)
  | k :: ks, dr =>
    match dirScan k dr with
    | (e, _, dr') =>
      match runCalls ks dr' with
      | (es, drf) => (e ++ es, drf)

theorem pe_nil (masks names : List String) (opq : Bool) (emitted : List String) :
    processEntries masks [] names opq emitted = (names, opq, emitted) := rfl

theorem pe_append (masks : List String) (a b names : List String) (opq : Bool)
    (emitted : List String) :
    processEntries masks (a ++ b) names opq emitted =
      processEntries masks b (processEntries masks a names opq emitted).1
        (processEntries masks a names opq emitted).2.1
        (processEntries masks a names opq emitted).2.2 := by
  induction a generalizing names opq emitted with
  | nil => simp [processEntries]
  | cons e es ih =>
    simp only [List.cons_append, processEntries]
    split
    · exact ih ..
    · split
      · exact ih ..
      · split
        · exact ih ..
        · exact ih ..

theorem pe_acc (masks : List String) (es names : List String) (opq : Bool)
    (emitted : List String) :
    processEntries masks es names opq emitted =
      (names ++ (processEntries masks es [] false []).1,
       opq || (processEntries masks es [] false []).2.1,
       emitted ++ (processEntries masks es [] false []).2.2) := by
  induction es generalizing names opq emitted with
  | nil => simp [processEntries]
  | cons e es ih =>
    simp only [processEntries]
    split
    · exact ih names opq emitted
    · split
      · rw [ih names true emitted, ih [] true []]
        simp
      · split
        · simp only [List.nil_append]
          rw [ih (names ++ [stripWh e]) opq emitted, ih [stripWh e] false []]
          simp
        · simp only [List.nil_append]
          rw [ih (names ++ [e]) opq (emitted ++ [e]), ih [e] false [e]]
          simp

theorem pe_em_mem (masks : List String) (es names : List String) (opq : Bool)
    (emitted : List String) (y : String)
    (hy : y ∈ (processEntries masks es names opq emitted).2.2) :
    y ∈ emitted ∨ (y ∈ es ∧ y ∉ masks ∧ whMarked y = false) := by
  induction es generalizing names opq emitted with
  | nil =>
    simp only [processEntries] at hy
    exact Or.inl hy
  | cons e es ih =>
    simp only [processEntries] at hy
    split at hy
    · rcases ih _ _ _ hy with h | ⟨h1, h2, h3⟩
      · exact Or.inl h
      · exact Or.inr ⟨List.mem_cons_of_mem _ h1, h2, h3⟩
    · split at hy
      · rcases ih _ _ _ hy with h | ⟨h1, h2, h3⟩
        · exact Or.inl h
        · exact Or.inr ⟨List.mem_cons_of_mem _ h1, h2, h3⟩
      · split at hy
        · rcases ih _ _ _ hy with h | ⟨h1, h2, h3⟩
          · exact Or.inl h
          · exact Or.inr ⟨List.mem_cons_of_mem _ h1, h2, h3⟩
        · rcases ih _ _ _ hy with h | ⟨h1, h2, h3⟩
          · rcases List.mem_append.mp h with h' | h'
            · exact Or.inl h'
            · rename_i hmask hopq hwh
              have hye : y = e := by simpa using h'
              subst hye
              exact Or.inr ⟨List.mem_cons_self _ _, hmask, by simpa using hwh⟩
          · exact Or.inr ⟨List.mem_cons_of_mem _ h1, h2, h3⟩

theorem pe_names_mem (masks : List String) (es names : List String) (opq : Bool)
    (emitted : List String) (x : String) (hx : x ∈ names) :
    x ∈ (processEntries masks es names opq emitted).1 := by
  induction es generalizing names opq emitted with
  | nil => simpa [processEntries] using hx
  | cons e es ih =>
    simp only [processEntries]
    split
    · exact ih _ _ _ hx
    · split
      · exact ih _ _ _ hx
      · split
        · exact ih _ _ _ (List.mem_append_left _ hx)
        · exact ih _ _ _ (List.mem_append_left _ hx)

theorem strip_wh_append (x : String) : stripWh (whiteoutMark ++ x) = x := by
  unfold stripWh whiteoutMark
  rw [String.data_append]
  rw [show (4 : Nat) = (".wh." : String).data.length from rfl, List.drop_left]

theorem wh_marked_append (x : String) : whMarked (whiteoutMark ++ x) = true := by
  unfold whMarked
  rw [String.data_append]
  exact List.isPrefixOf_iff_prefix.mpr (List.prefix_append _ _)

theorem pe_wh_pending (masks : List String) (es names : List String) (opq : Bool)
    (emitted : List String) (x : String)
    (hin : (whiteoutMark ++ x) ∈ es) (hnm : (whiteoutMark ++ x) ∉ masks)
    (hno : whiteoutMark ++ x ≠ whiteoutOpaque) :
    x ∈ (processEntries masks es names opq emitted).1 := by
  induction es generalizing names opq emitted with
  | nil => simp at hin
  | cons e es ih =>
    rcases List.mem_cons.mp hin with he | he
    · subst he
      simp only [processEntries]
      rw [if_neg hnm, if_neg hno, if_pos (wh_marked_append x)]
      exact pe_names_mem masks es _ opq emitted x
        (List.mem_append_right _ (by simp [strip_wh_append]))
    · simp only [processEntries]
      split
      · exact ih _ _ _ he
      · split
        · exact ih _ _ _ he
        · split
          · exact ih _ _ _ he
          · exact ih _ _ _ he

theorem mem_insertAll (masks names : List String) (x : String) :
    x ∈ insertAll masks names ↔ x ∈ masks ∨ x ∈ names := by
  unfold insertAll
  simp only [List.mem_append, List.mem_filter]
  constructor
  · rintro (h | ⟨h, -⟩)
    · exact Or.inl h
    · exact Or.inr h
  · rintro (h | h)
    · exact Or.inl h
    · by_cases hm : x ∈ masks
      · exact Or.inl hm
      · refine Or.inr ⟨h, ?_⟩
        simp [List.contains, List.elem_iff, hm]

theorem readDir_nonpos (s : DirStream) (c : Int) (hc : c ≤ 0) :
    s.readDir c = ((s.entries, s.terr.map ReadErr.fserr), ⟨[], none⟩) := by
  rw [DirStream.readDir, if_pos hc]

theorem readDir_eof_full (s : DirStream) (c : Int)
    (heof : (s.readDir c).1.2 = some ReadErr.eof) :
    (s.readDir c).1.1 = [] ∧ (s.readDir c).2 = s ∧ s.entries = [] := by
  rw [DirStream.readDir] at heof ⊢
  by_cases h1 : c ≤ 0
  · rw [if_pos h1] at heof
    cases h : s.terr <;> rw [h] at heof <;> simp at heof
  · rw [if_neg h1] at heof ⊢
    by_cases h2 : s.entries.isEmpty
    · rw [if_pos h2] at heof ⊢
      exact ⟨rfl, rfl, by simpa [List.isEmpty_iff] using h2⟩
    · rw [if_neg h2] at heof
      simp at heof

theorem readDir_fserr_pos (s : DirStream) (c : Int) (e : FsError) (hc : 0 < c)
    (herr : (s.readDir c).1.2 = some (ReadErr.fserr e)) :
    (s.readDir c).1.1 = [] ∧ (s.readDir c).2 = s := by
  rw [DirStream.readDir] at herr ⊢
  rw [if_neg (by omega)] at herr ⊢
  by_cases h2 : s.entries.isEmpty
  · rw [if_pos h2]
    exact ⟨rfl, rfl⟩
  · rw [if_neg h2] at herr
    simp at herr

theorem readDir_none_pos (s : DirStream) (c : Int) (hc : 0 < c)
    (hnone : (s.readDir c).1.2 = none) :
    (s.readDir c).1.1 ++ ((s.readDir c).2).entries = s.entries ∧
      ((s.readDir c).2).terr = s.terr := by
  rw [DirStream.readDir] at hnone ⊢
  rw [if_neg (by omega)] at hnone ⊢
  by_cases h2 : s.entries.isEmpty
  · rw [if_pos h2] at hnone
    simp at hnone
  · rw [if_neg h2]
    exact ⟨List.take_append_drop _ _, rfl⟩

theorem scanInner_chunk (n : Nat) (masks : List String) (s : DirStream)
    (names : List String) (opq : Bool) (emitted : List String)
    (h : n = 0 ∨ emitted.length < n) :
    processEntries masks (scanInner n masks s names opq emitted h).stream.entries
        (scanInner n masks s names opq emitted h).names
        (scanInner n masks s names opq emitted h).opq
        (scanInner n masks s names opq emitted h).emitted =
      processEntries masks s.entries names opq emitted ∧
      ((scanInner n masks s names opq emitted h).exit = InnerExit.broke →
        (scanInner n masks s names opq emitted h).stream.entries = []) := by
  refine scanInner.induct n masks
    (motive := fun s names opq emitted h =>
      processEntries masks (scanInner n masks s names opq emitted h).stream.entries
          (scanInner n masks s names opq emitted h).names
          (scanInner n masks s names opq emitted h).opq
          (scanInner n masks s names opq emitted h).emitted =
        processEntries masks s.entries names opq emitted ∧
        ((scanInner n masks s names opq emitted h).exit = InnerExit.broke →
          (scanInner n masks s names opq emitted h).stream.entries = []))
    ?_ ?_ ?_ s names opq emitted h
  · intro s names opq emitted h batch rerr s' hrd names' opq' emitted' hpe hbreak
    rw [scanInner_eq_broke n masks s names opq emitted h batch rerr s' names' opq' emitted'
      hrd hpe hbreak]
    rcases hbreak with h0 | heof
    · subst h0
      have hc : ((0 : Nat) : Int) - emitted.length ≤ 0 := by omega
      have hrd0 := readDir_nonpos s _ hc
      rw [hrd0] at hrd
      simp only [Prod.mk.injEq] at hrd
      obtain ⟨⟨hb, -⟩, hs⟩ := hrd
      subst hb
      constructor
      · simp only [← hs, pe_nil]
        exact hpe.symm
      · intro _
        rw [← hs]
    · have hfull := readDir_eof_full s ((n : Int) - emitted.length) (by rw [hrd]; exact heof)
      rw [hrd] at hfull
      simp only at hfull
      obtain ⟨hb, hs, hse⟩ := hfull
      subst hb
      rw [pe_nil] at hpe
      constructor
      · simp only [hs, hse, pe_nil]
        exact hpe.symm
      · intro _
        simp only [hs, hse]
  · intro s names opq emitted h batch rerr s' hrd names' opq' emitted' hpe hbreak hret
    rw [scanInner_eq_ret n masks s names opq emitted h batch rerr s' names' opq' emitted'
      hrd hpe hbreak hret]
    refine ⟨?_, by intro hco; simp at hco⟩
    simp only
    have hn0 : n ≠ 0 := fun hh => hbreak (Or.inl hh)
    have hlt : emitted.length < n := h.resolve_left hn0
    have hc : 0 < (n : Int) - emitted.length := by omega
    match hre : rerr with
    | none =>
      have hsp := readDir_none_pos s ((n : Int) - emitted.length) hc (by rw [hrd])
      rw [hrd] at hsp
      simp only at hsp
      obtain ⟨hsplit, -⟩ := hsp
      rw [← hsplit, pe_append, hpe]
    | some ReadErr.eof =>
      exact absurd (Or.inr rfl) hbreak
    | some (ReadErr.fserr e) =>
      have hsp := readDir_fserr_pos s ((n : Int) - emitted.length) e hc (by rw [hrd])
      rw [hrd] at hsp
      simp only at hsp
      obtain ⟨hb, hs⟩ := hsp
      subst hb
      rw [hs]
      rw [pe_nil] at hpe
      simp only [Prod.mk.injEq] at hpe
      obtain ⟨h1, h2, h3⟩ := hpe
      rw [h1, h2, h3]
  · intro s names opq emitted h batch rerr s' hrd names' opq' emitted' hpe hbreak hret ih
    have hstep := scanInner_eq_step n masks s names opq emitted h batch rerr s' names' opq'
      emitted' hrd hpe hbreak hret
      (budget_step n masks s names opq emitted h batch rerr s' names' opq' emitted'
        hrd hpe hbreak hret)
    rw [hstep]
    refine ⟨?_, ih.2⟩
    rw [ih.1]
    have hnone : rerr = none := by
      by_contra hh
      exact hret (Or.inr hh)
    have hn0 : n ≠ 0 := fun hh => hbreak (Or.inl hh)
    have hlt : emitted.length < n := h.resolve_left hn0
    have hc : 0 < (n : Int) - emitted.length := by omega
    have hsp := readDir_none_pos s ((n : Int) - emitted.length) hc (by rw [hrd, hnone])
    rw [hrd] at hsp
    simp only at hsp
    obtain ⟨hsplit, -⟩ := hsp
    rw [← hsplit, pe_append, hpe]

theorem scanOuter_nil (n : Nat) (names masks emitted : List String)
    (h : n = 0 ∨ emitted.length < n) :
    scanOuter n [] names masks emitted h =
      (emitted, if emitted.length < n then ScanRet.eof else ScanRet.ok, ⟨[], names, masks⟩) := by
  rw [scanOuter]

theorem scanOuter_cons_ret (n : Nat) (s : DirStream) (rest : List DirStream)
    (names masks emitted : List String) (h : n = 0 ∨ emitted.length < n)
    (s' : DirStream) (names' : List String) (opq' : Bool) (emitted' : List String)
    (r : ScanRet)
    (hout : scanInner n masks s names false emitted h = ⟨s', names', opq', emitted', .ret r⟩) :
    scanOuter n (s :: rest) names masks emitted h =
      (emitted', r, ⟨if opq' then [s'] else s' :: rest, names', masks⟩) := by
  rw [scanOuter]
  split
  · rename_i s1 names1 opq1 emitted1 r1 heq
    have hco := hout.symm.trans heq
    simp only [InnerOut.mk.injEq, InnerExit.ret.injEq] at hco
    obtain ⟨h1, h2, h3, h4, h5⟩ := hco
    subst h1 h2 h3 h4 h5
    rfl
  · rename_i s1 names1 opq1 emitted1 heq
    have hco := hout.symm.trans heq
    simp only [InnerOut.mk.injEq] at hco
    exact absurd hco.2.2.2.2 (by simp)

theorem scanOuter_cons_broke (n : Nat) (s : DirStream) (rest : List DirStream)
    (names masks emitted : List String) (h : n = 0 ∨ emitted.length < n)
    (s' : DirStream) (names' : List String) (opq' : Bool) (emitted' : List String)
    (hout : scanInner n masks s names false emitted h = ⟨s', names', opq', emitted', .broke⟩)
    (h' : n = 0 ∨ emitted'.length < n) :
    scanOuter n (s :: rest) names masks emitted h =
      scanOuter n (if opq' then [] else rest) [] (insertAll masks names') emitted' h' := by
  rw [scanOuter]
  split
  · rename_i s1 names1 opq1 emitted1 r1 heq
    have hco := hout.symm.trans heq
    simp only [InnerOut.mk.injEq] at hco
    exact absurd hco.2.2.2.2 (by simp)
  · rename_i s1 names1 opq1 emitted1 heq
    have hco := hout.symm.trans heq
    simp only [InnerOut.mk.injEq, and_true] at hco
    obtain ⟨h1, h2, h3, h4⟩ := hco
    subst h1 h2 h3 h4
    rfl

theorem scanInner_zero (masks : List String) (s : DirStream) (names : List String)
    (opq : Bool) (emitted : List String) (h : 0 = 0 ∨ emitted.length < 0) :
    scanInner 0 masks s names opq emitted h =
      ⟨⟨[], none⟩, (processEntries masks s.entries names opq emitted).1,
        (processEntries masks s.entries names opq emitted).2.1,
        (processEntries masks s.entries names opq emitted).2.2, .broke⟩ :=
  scanInner_eq_broke 0 masks s names opq emitted h s.entries (s.terr.map ReadErr.fserr)
    ⟨[], none⟩ _ _ _ (readDir_nonpos s _ (by omega)) rfl (Or.inl rfl)

theorem mergeNames_cons (masks names : List String) (es : List String)
    (rest : List (List String)) :
    mergeNames masks names (es :: rest) =
      (processEntries masks es names false []).2.2 ++
        (if (processEntries masks es names false []).2.1 then []
         else mergeNames (insertAll masks (processEntries masks es names false []).1) [] rest) :=
  rfl

theorem mergeNames_nil (masks names : List String) : mergeNames masks names [] = [] := rfl

/-- Decomposition invariant of one `scan` call: the entries the call emits,
followed by an exhaustive error-free drain of the final cursor state, are
exactly an exhaustive drain of the initial cursor state.  This is what makes
bounded directory reads resumable. -/
theorem scanOuter_merge (n : Nat) (files : List DirStream) (names masks emitted : List String)
    (h : n = 0 ∨ emitted.length < n) :
    (scanOuter n files names masks emitted h).1 ++
      mergeOf (scanOuter n files names masks emitted h).2.2 =
    emitted ++ mergeNames masks names (files.map DirStream.entries) := by
  refine scanOuter.induct n
    (motive := fun files names masks emitted h =>
      (scanOuter n files names masks emitted h).1 ++
        mergeOf (scanOuter n files names masks emitted h).2.2 =
      emitted ++ mergeNames masks names (files.map DirStream.entries))
    ?_ ?_ ?_ files names masks emitted h
  · intro names masks emitted h
    rw [scanOuter_nil]
    simp [mergeOf, mergeNames]
  · intro names masks emitted h s rest s' names' opq' emitted' r hout
    rw [scanOuter_cons_ret n s rest names masks emitted h s' names' opq' emitted' r hout]
    have hchunk := (scanInner_chunk n masks s names false emitted h).1
    rw [hout] at hchunk
    simp only at hchunk
    rw [pe_acc masks s'.entries names' opq' emitted',
      pe_acc masks s.entries names false emitted] at hchunk
    simp only [Prod.mk.injEq, Bool.false_or] at hchunk
    obtain ⟨hm1, hm2, hm3⟩ := hchunk
    simp only [mergeOf, List.map_cons, mergeNames_cons]
    rw [pe_acc masks s.entries names false []]
    simp only [List.nil_append, Bool.false_or]
    cases hq : opq'
    · rw [hq] at hm2
      simp only [Bool.false_or] at hm2
      rw [if_neg (by simp)]
      simp only [List.map_cons, mergeNames_cons]
      rw [pe_acc masks s'.entries names' false []]
      simp only [List.nil_append, Bool.false_or]
      rw [hm1, hm2]
      rw [← List.append_assoc, ← List.append_assoc, hm3]
    · rw [hq] at hm2
      simp only [Bool.true_or] at hm2
      rw [if_pos rfl]
      simp only [List.map_cons, List.map_nil, mergeNames_cons]
      rw [pe_acc masks s'.entries names' false []]
      simp only [List.nil_append, Bool.false_or, mergeNames_nil, ite_self,
        List.append_nil]
      rw [← hm2, if_pos rfl, List.append_nil]
      exact hm3
  · intro names masks emitted h s rest s' names' opq' emitted' hout ih
    have hbnd : n = 0 ∨ emitted'.length < n := by
      have hb := scanInner_broke_bound n masks s names false emitted h
      rw [hout] at hb
      exact hb rfl
    rw [scanOuter_cons_broke n s rest names masks emitted h s' names' opq' emitted' hout hbnd]
    have ih' : (scanOuter n (if opq' then [] else rest) [] (insertAll masks names') emitted'
          hbnd).1 ++
        mergeOf (scanOuter n (if opq' then [] else rest) [] (insertAll masks names')
          emitted' hbnd).2.2 =
      emitted' ++ mergeNames (insertAll masks names') []
        ((if opq' then [] else rest).map DirStream.entries) := ih
    rw [ih']
    have hchunk := (scanInner_chunk n masks s names false emitted h).1
    have hend := (scanInner_chunk n masks s names false emitted h).2
    rw [hout] at hchunk hend
    simp only at hchunk hend
    rw [hend trivial, pe_nil, pe_acc masks s.entries names false emitted] at hchunk
    simp only [Prod.mk.injEq, Bool.false_or] at hchunk
    obtain ⟨hm1, hm2, hm3⟩ := hchunk
    simp only [List.map_cons, mergeNames_cons]
    rw [pe_acc masks s.entries names false []]
    simp only [List.nil_append, Bool.false_or]
    subst hm1 hm2 hm3
    cases hq : (processEntries masks s.entries [] false []).2.1
    · rw [if_neg (by simp [hq]), if_neg (by simp [hq])]
      simp [List.append_assoc]
    · rw [if_pos (by simp [hq]), if_pos (by simp [hq])]
      simp [mergeNames_nil]

theorem scanOuter_zero (files : List DirStream) (names masks emitted : List String)
    (h : (0 : Nat) = 0 ∨ emitted.length < 0) :
    (scanOuter 0 files names masks emitted h).2.1 = ScanRet.ok ∧
      (scanOuter 0 files names masks emitted h).2.2.files = [] := by
  refine scanOuter.induct 0
    (motive := fun files names masks emitted h =>
      (scanOuter 0 files names masks emitted h).2.1 = ScanRet.ok ∧
        (scanOuter 0 files names masks emitted h).2.2.files = [])
    ?_ ?_ ?_ files names masks emitted h
  · intro names masks emitted h
    rw [scanOuter_nil]
    exact ⟨by rw [if_neg (by omega)], rfl⟩
  · intro names masks emitted h s rest s' names' opq' emitted' r hout
    rw [scanInner_zero masks s names false emitted h] at hout
    simp only [InnerOut.mk.injEq] at hout
    exact absurd hout.2.2.2.2 (by simp)
  · intro names masks emitted h s rest s' names' opq' emitted' hout ih
    have hbnd : (0 : Nat) = 0 ∨ emitted'.length < 0 := Or.inl rfl
    rw [scanOuter_cons_broke 0 s rest names masks emitted h s' names' opq' emitted' hout hbnd]
    exact ih

theorem dirScan_zero (dr : DirReader) :
    (dirScan 0 dr).1 = mergeOf dr ∧ (dirScan 0 dr).2.1 = ScanRet.ok ∧
      (dirScan 0 dr).2.2.files = [] := by
  have hm := scanOuter_merge 0 dr.files dr.names dr.masks [] (by simp)
  have hz := scanOuter_zero dr.files dr.names dr.masks [] (by simp)
  have hds : dirScan 0 dr = scanOuter 0 dr.files dr.names dr.masks [] (by simp) := rfl
  rw [hds]
  refine ⟨?_, hz.1, hz.2⟩
  have hfin : mergeOf (scanOuter 0 dr.files dr.names dr.masks [] (by simp)).2.2 = [] := by
    rw [mergeOf, hz.2]
    rfl
  rw [hfin, List.append_nil] at hm
  simpa [mergeOf] using hm

theorem scanInner_ret_ne_eof (n : Nat) (masks : List String) (s : DirStream)
    (names : List String) (opq : Bool) (emitted : List String)
    (h : n = 0 ∨ emitted.length < n) (r : ScanRet) :
    (scanInner n masks s names opq emitted h).exit = InnerExit.ret r → r ≠ ScanRet.eof := by
  refine scanInner.induct n masks
    (motive := fun s names opq emitted h =>
      ∀ r, (scanInner n masks s names opq emitted h).exit = InnerExit.ret r →
        r ≠ ScanRet.eof)
    ?_ ?_ ?_ s names opq emitted h r
  · intro s names opq emitted h batch rerr s' hrd names' opq' emitted' hpe hbreak r hr
    rw [scanInner_eq_broke n masks s names opq emitted h batch rerr s' names' opq' emitted'
      hrd hpe hbreak] at hr
    simp at hr
  · intro s names opq emitted h batch rerr s' hrd names' opq' emitted' hpe hbreak hret r hr
    rw [scanInner_eq_ret n masks s names opq emitted h batch rerr s' names' opq' emitted'
      hrd hpe hbreak hret] at hr
    simp only [InnerExit.ret.injEq] at hr
    subst hr
    match rerr with
    | none => simp [retOf]
    | some ReadErr.eof => exact absurd (Or.inr rfl) hbreak
    | some (ReadErr.fserr e) => simp [retOf]
  · intro s names opq emitted h batch rerr s' hrd names' opq' emitted' hpe hbreak hret ih r hr
    have hstep := scanInner_eq_step n masks s names opq emitted h batch rerr s' names' opq'
      emitted' hrd hpe hbreak hret
      (budget_step n masks s names opq emitted h batch rerr s' names' opq' emitted'
        hrd hpe hbreak hret)
    rw [hstep] at hr
    exact ih r hr

theorem scanOuter_eof (n : Nat) (files : List DirStream) (names masks emitted : List String)
    (h : n = 0 ∨ emitted.length < n) :
    (scanOuter n files names masks emitted h).2.1 = ScanRet.eof →
      0 < n ∧ (scanOuter n files names masks emitted h).1.length < n := by
  refine scanOuter.induct n
    (motive := fun files names masks emitted h =>
      (scanOuter n files names masks emitted h).2.1 = ScanRet.eof →
        0 < n ∧ (scanOuter n files names masks emitted h).1.length < n)
    ?_ ?_ ?_ files names masks emitted h
  · intro names masks emitted h hr
    rw [scanOuter_nil] at hr ⊢
    by_cases hlt : emitted.length < n
    · exact ⟨by omega, by simpa using hlt⟩
    · rw [if_neg hlt] at hr
      simp at hr
  · intro names masks emitted h s rest s' names' opq' emitted' r hout hr
    rw [scanOuter_cons_ret n s rest names masks emitted h s' names' opq' emitted' r hout] at hr
    simp only at hr
    subst hr
    have := scanInner_ret_ne_eof n masks s names false emitted h ScanRet.eof
      (by rw [hout])
    simp at this
  · intro names masks emitted h s rest s' names' opq' emitted' hout ih hr
    have hbnd : n = 0 ∨ emitted'.length < n := by
      have hb := scanInner_broke_bound n masks s names false emitted h
      rw [hout] at hb
      exact hb rfl
    rw [scanOuter_cons_broke n s rest names masks emitted h s' names' opq' emitted'
      hout hbnd] at hr ⊢
    exact ih hr

theorem scanInner_em_mem (n : Nat) (masks : List String) (s : DirStream)
    (names : List String) (opq : Bool) (emitted : List String)
    (h : n = 0 ∨ emitted.length < n) (y : String) :
    y ∈ (scanInner n masks s names opq emitted h).emitted →
      y ∈ emitted ∨ y ∉ masks := by
  refine scanInner.induct n masks
    (motive := fun s names opq emitted h =>
      ∀ y, y ∈ (scanInner n masks s names opq emitted h).emitted →
        y ∈ emitted ∨ y ∉ masks)
    ?_ ?_ ?_ s names opq emitted h y
  · intro s names opq emitted h batch rerr s' hrd names' opq' emitted' hpe hbreak y hy
    rw [scanInner_eq_broke n masks s names opq emitted h batch rerr s' names' opq' emitted'
      hrd hpe hbreak] at hy
    simp only at hy
    have := pe_em_mem masks batch names opq emitted y (by rw [hpe]; exact hy)
    tauto
  · intro s names opq emitted h batch rerr s' hrd names' opq' emitted' hpe hbreak hret y hy
    rw [scanInner_eq_ret n masks s names opq emitted h batch rerr s' names' opq' emitted'
      hrd hpe hbreak hret] at hy
    simp only at hy
    have := pe_em_mem masks batch names opq emitted y (by rw [hpe]; exact hy)
    tauto
  · intro s names opq emitted h batch rerr s' hrd names' opq' emitted' hpe hbreak hret ih y hy
    have hstep := scanInner_eq_step n masks s names opq emitted h batch rerr s' names' opq'
      emitted' hrd hpe hbreak hret
      (budget_step n masks s names opq emitted h batch rerr s' names' opq' emitted'
        hrd hpe hbreak hret)
    rw [hstep] at hy
    rcases ih y hy with hy' | hy'
    · have := pe_em_mem masks batch names opq emitted y (by rw [hpe]; exact hy')
      tauto
    · exact Or.inr hy'

/-- The cursor invariants of one `scan` call: the durable mask set only
grows, a name that is already masked is never emitted again, the layer list
never grows, and the mask set changes only when at least one layer was
completed (and hence removed). -/
theorem scanOuter_inv (n : Nat) (files : List DirStream) (names masks emitted : List String)
    (h : n = 0 ∨ emitted.length < n) :
    (∀ x ∈ masks, x ∈ (scanOuter n files names masks emitted h).2.2.masks) ∧
    (∀ x ∈ masks, x ∈ (scanOuter n files names masks emitted h).1 → x ∈ emitted) ∧
    (scanOuter n files names masks emitted h).2.2.files.length ≤ files.length ∧
    ((scanOuter n files names masks emitted h).2.2.masks = masks ∨
      (scanOuter n files names masks emitted h).2.2.files.length < files.length) := by
  refine scanOuter.induct n
    (motive := fun files names masks emitted h =>
      (∀ x ∈ masks, x ∈ (scanOuter n files names masks emitted h).2.2.masks) ∧
      (∀ x ∈ masks, x ∈ (scanOuter n files names masks emitted h).1 → x ∈ emitted) ∧
      (scanOuter n files names masks emitted h).2.2.files.length ≤ files.length ∧
      ((scanOuter n files names masks emitted h).2.2.masks = masks ∨
        (scanOuter n files names masks emitted h).2.2.files.length < files.length))
    ?_ ?_ ?_ files names masks emitted h
  · intro names masks emitted h
    rw [scanOuter_nil]
    exact ⟨fun x hx => hx, fun x _ hx => hx, le_refl _, Or.inl rfl⟩
  · intro names masks emitted h s rest s' names' opq' emitted' r hout
    rw [scanOuter_cons_ret n s rest names masks emitted h s' names' opq' emitted' r hout]
    refine ⟨fun x hx => hx, ?_, ?_, Or.inl rfl⟩
    · intro x hx hxe
      have hmem := scanInner_em_mem n masks s names false emitted h x (by rw [hout]; exact hxe)
      tauto
    · simp only [List.length_cons]
      cases opq' <;> simp
  · intro names masks emitted h s rest s' names' opq' emitted' hout ih
    have hbnd : n = 0 ∨ emitted'.length < n := by
      have hb := scanInner_broke_bound n masks s names false emitted h
      rw [hout] at hb
      exact hb rfl
    rw [scanOuter_cons_broke n s rest names masks emitted h s' names' opq' emitted' hout hbnd]
    have ih' := ih
    obtain ⟨ih1, ih2, ih3, -⟩ := ih'
    have hfl : (if opq' then [] else rest).length ≤ rest.length := by
      cases opq' <;> simp
    refine ⟨?_, ?_, ?_, ?_⟩
    · intro x hx
      exact ih1 x ((mem_insertAll masks names' x).mpr (Or.inl hx))
    · intro x hx hxe
      have hx2 := ih2 x ((mem_insertAll masks names' x).mpr (Or.inl hx)) hxe
      have hmem := scanInner_em_mem n masks s names false emitted h x (by rw [hout]; exact hx2)
      tauto
    · calc _ ≤ (if opq' then [] else rest).length := ih3
      _ ≤ rest.length := hfl
      _ ≤ (s :: rest).length := by simp
    · right
      calc _ ≤ (if opq' then [] else rest).length := ih3
      _ ≤ rest.length := hfl
      _ < (s :: rest).length := by simp

theorem pe_em_acc_mem (masks : List String) (es names : List String) (opq : Bool)
    (emitted : List String) (x : String) (hx : x ∈ emitted) :
    x ∈ (processEntries masks es names opq emitted).2.2 := by
  induction es generalizing names opq emitted with
  | nil => simpa [processEntries] using hx
  | cons e es ih =>
    simp only [processEntries]
    split
    · exact ih _ _ _ hx
    · split
      · exact ih _ _ _ hx
      · split
        · exact ih _ _ _ hx
        · exact ih _ _ _ (List.mem_append_left _ hx)
theorem pe_emit_mem (masks : List String) (es names : List String) (opq : Bool)
    (emitted : List String) (x : String) (hx : x ∈ es) (hnm : x ∉ masks)
    (hwh : whMarked x = false) : x ∈ (processEntries masks es names opq emitted).2.2 := by
  induction es generalizing names opq emitted with
  | nil => simp at hx
  | cons e es ih =>
    rcases List.mem_cons.mp hx with he | he
    · subst he
      simp only [processEntries]
      rw [if_neg hnm, if_neg ?hop, if_neg (by simp [hwh])]
      case hop =>
        intro hco
        subst hco
        simp [whMarked, whiteoutOpaque, whiteoutMark] at hwh
      have hmem : x ∈ emitted ++ [x] := List.mem_append_right _ (by simp)
      exact pe_em_acc_mem masks es _ opq _ x hmem
    · simp only [processEntries]
      split
      · exact ih _ _ _ he
      · split
        · exact ih _ _ _ he
        · split
          · exact ih _ _ _ he
          · exact ih _ _ _ he


theorem merge_masked (fs : List (List String)) (masks names : List String) (x : String)
    (hx : x ∈ masks) : x ∉ mergeNames masks names fs := by
  induction fs generalizing masks names with
  | nil => simp [mergeNames]
  | cons es rest ih =>
    rw [mergeNames_cons]
    intro hmem
    rcases List.mem_append.mp hmem with hin | hin
    · rcases pe_em_mem masks es names false [] x hin with hco | ⟨-, hco, -⟩
      · simp at hco
      · exact hco hx
    · by_cases hq : (processEntries masks es names false []).2.1
      · rw [if_pos hq] at hin
        simp at hin
      · rw [if_neg hq] at hin
        exact ih (insertAll masks _) [] ((mem_insertAll ..).mpr (Or.inl hx)) hin

theorem merge_no_wh (fs : List (List String)) (masks names : List String) (y : String)
    (hy : y ∈ mergeNames masks names fs) : whMarked y = false := by
  induction fs generalizing masks names with
  | nil => simp [mergeNames] at hy
  | cons es rest ih =>
    rw [mergeNames_cons] at hy
    rcases List.mem_append.mp hy with hin | hin
    · rcases pe_em_mem masks es names false [] y hin with hco | ⟨-, -, hco⟩
      · simp at hco
      · exact hco
    · by_cases hq : (processEntries masks es names false []).2.1
      · rw [if_pos hq] at hin
        simp at hin
      · rw [if_neg hq] at hin
        exact ih (insertAll masks _) [] hin

theorem pe_opq_stays (masks : List String) (es names : List String)
    (emitted : List String) : (processEntries masks es names true emitted).2.1 = true := by
  rw [pe_acc]
  simp

theorem pe_opq_true (masks : List String) (es names : List String) (opq : Bool)
    (emitted : List String) (hin : whiteoutOpaque ∈ es) (hnm : whiteoutOpaque ∉ masks) :
    (processEntries masks es names opq emitted).2.1 = true := by
  induction es generalizing names opq emitted with
  | nil => simp at hin
  | cons e es ih =>
    rcases List.mem_cons.mp hin with he | he
    · subst he
      simp only [processEntries]
      split
      · rename_i hmem
        exact absurd hmem hnm
      · split
        · exact pe_opq_stays ..
        · rename_i hne
          exact absurd trivial hne
    · simp only [processEntries]
      split
      · exact ih _ _ _ he
      · split
        · exact pe_opq_stays ..
        · split
          · exact ih _ _ _ he
          · exact ih _ _ _ he

theorem dirScan_merge (k : Nat) (dr : DirReader) :
    (dirScan k dr).1 ++ mergeOf (dirScan k dr).2.2 = mergeOf dr := by
  have hm := scanOuter_merge k dr.files dr.names dr.masks [] (by simp; omega)
  rw [List.nil_append] at hm
  exact hm

theorem runCalls_cons (k : Nat) (ks : List Nat) (dr : DirReader) :
    runCalls (k :: ks) dr =
      ((dirScan k dr).1 ++ (runCalls ks (dirScan k dr).2.2).1,
        (runCalls ks (dirScan k dr).2.2).2) := rfl

theorem runCalls_merge (ks : List Nat) (dr : DirReader) :
    (runCalls ks dr).1 ++ mergeOf (runCalls ks dr).2 = mergeOf dr := by
  induction ks generalizing dr with
  | nil => simp [runCalls]
  | cons k ks ih =>
    rw [runCalls_cons]
    simp only
    rw [List.append_assoc, ih (dirScan k dr).2.2]
    exact dirScan_merge k dr

theorem mergeOf_empty (dr : DirReader) (hf : dr.files = []) : mergeOf dr = [] := by
  rw [mergeOf, hf]
  rfl

theorem scanLayers_nondir_lower (p w1 wAll : String) (ks : List Layer) (l : Layer)
    (ls : List Layer)
    (hks : ∀ k ∈ ks, k.stat p = Except.ok true ∧ hasOneOf k [w1, wAll] = Except.ok false)
    (hl : l.stat p = Except.ok false) :
    scanLayers p w1 wAll (ks ++ l :: ls) false = .ok ks := by
  induction ks with
  | nil =>
    simp [scanLayers, hl]
  | cons k ks ih =>
    obtain ⟨hk1, hk2⟩ := hks k (List.mem_cons_self ..)
    simp [scanLayers, hk1, hk2, ih fun k hk => hks k (List.mem_cons_of_mem _ hk)]

theorem scanLayers_nondir (p w1 wAll : String) (ks : List Layer) (l : Layer)
    (ls : List Layer)
    (hks : ∀ k ∈ ks, k.stat p = Except.ok true ∧ hasOneOf k [w1, wAll] = Except.ok false)
    (hl : l.stat p = Except.ok false) :
    scanLayers p w1 wAll (ks ++ l :: ls) true =
      .ok (if ks.isEmpty then [l] else ks) := by
  cases ks with
  | nil =>
    simp [scanLayers, hl]
  | cons k ks =>
    obtain ⟨hk1, hk2⟩ := hks k (List.mem_cons_self ..)
    simp [scanLayers, hk1, hk2,
      scanLayers_nondir_lower p w1 wAll ks l ls (fun k hk => hks k (List.mem_cons_of_mem _ hk)) hl]

theorem openLoop_fail (name : String) (ls : List Layer) (k : Nat) (hk : k < ls.length)
    (e : FsError) (acc : List Nat)
    (hfail : (ls.get ⟨k, hk⟩).openFile name = .error e)
    (hpre : ∀ i (hi : i < k), ((ls.get ⟨i, Nat.lt_trans hi hk⟩).openFile name).isOk = true) :
    openLoop name ls acc =
      (some e, acc ++ (ls.take k).filterMap fun l => (l.openFile name).toOption) := by
  induction ls generalizing k acc with
  | nil => exact absurd hk (by simp)
  | cons l ls ih =>
    cases k with
    | zero =>
      simp only [List.get] at hfail
      simp only [openLoop, hfail, List.take_zero, List.filterMap_nil, List.append_nil]
    | succ k =>
      have h0 := hpre 0 (Nat.succ_pos k)
      simp only [List.get] at h0
      match hop : (l.openFile name) with
      | .error e' => rw [hop] at h0; simp [Except.isOk, Except.toBool] at h0
      | .ok fd =>
        simp only [openLoop, hop]
        have hk' : k < ls.length := by simpa using hk
        have := ih k hk' (acc ++ [fd]) (by simpa using hfail)
          (fun i hi => by
            have := hpre (i + 1) (by omega)
            simpa using this)
        rw [this]
        simp [hop, List.filterMap_cons, Except.toOption, List.append_assoc]

theorem openLoop_ok (name : String) (ls : List Layer) (acc : List Nat)
    (hall : ∀ l ∈ ls, ((l.openFile name)).isOk = true) :
    openLoop name ls acc =
      (none, acc ++ ls.filterMap fun l => (l.openFile name).toOption) := by
  induction ls generalizing acc with
  | nil => simp [openLoop]
  | cons l ls ih =>
    have h0 := hall l (List.mem_cons_self ..)
    match hop : (l.openFile name) with
    | .error e' => rw [hop] at h0; simp [Except.isOk, Except.toBool] at h0
    | .ok fd =>
      simp only [openLoop, hop]
      rw [ih (acc ++ [fd]) fun l hl => hall l (List.mem_cons_of_mem _ hl)]
      simp [hop, List.filterMap_cons, Except.toOption, List.append_assoc]

theorem mode_mask_clears (m : Nat) : layerInfoMode m &&& 146 = 0 := by
  rw [layerInfoMode, Nat.land_assoc]
  rw [show modeMask &&& 146 = 0 from by decide]
  simp

theorem mode_mask_keeps (m : Nat) (hm : m < 2 ^ 32) :
    layerInfoMode m ||| (m &&& 146) = m := by
  apply Nat.eq_of_testBit_eq
  intro i
  rw [Nat.testBit_lor, layerInfoMode, Nat.testBit_land, Nat.testBit_land]
  by_cases hi : i < 32
  · have hbit : (Nat.testBit modeMask i || Nat.testBit 146 i) = true := by
      revert hi
      revert i
      decide
    cases hmb : Nat.testBit m i <;> cases h1 : Nat.testBit modeMask i <;>
      cases h2 : Nat.testBit 146 i <;> simp_all
  · have hmb : Nat.testBit m i = false :=
      Nat.testBit_lt_two_pow (lt_of_lt_of_le hm (Nat.pow_le_pow_right (by omega) (by omega)))
    simp [hmb]

/-- Fuel-based executable mirror of `scanInner` (structural recursion on the
fuel, so that concrete runs reduce inside the kernel); `none` means the fuel
ran out, which `innerExec_eq` shows never happens with adequate fuel. -/
def innerExec (fuel : Nat) (n : Nat) (masks : List String) (s : DirStream)
    (names : List String) (opq : Bool) (emitted : List String) : Option InnerOut :=
  match fuel with
  | 0 => none
  | fuel + 1 =>
    match s.readDir ((n : Int) - emitted.length) with
    | ((batch, rerr), s') =>
      match processEntries masks batch names opq emitted with
      | (names', opq', emitted') =>
        if n = 0 ∨ rerr = some ReadErr.eof then some ⟨s', names', opq', emitted', .broke⟩
        else if n = emitted'.length ∨ rerr ≠ none then
          some ⟨s', names', opq', emitted', .ret (retOf rerr)⟩
        else innerExec fuel n masks s' names' opq' emitted'

/-- Fuel-based executable mirror of `scanOuter`. -/
def outerExec (fuel : Nat) (n : Nat) (files : List DirStream)
    (names masks emitted : List String) : Option (List String × ScanRet × DirReader) :=
  match fuel, files with
  | _, [] =>
    some (emitted, if emitted.length < n then ScanRet.eof else ScanRet.ok, ⟨[], names, masks⟩)
  | 0, _ :: _ => none
  | fuel + 1, s :: rest =>
    match innerExec (s.entries.length + 1) n masks s names false emitted with
    | none => none
    | some ⟨s', names', opq', emitted', InnerExit.ret r⟩ =>
      some (emitted', r, ⟨if opq' then [s'] else s' :: rest, names', masks⟩)
    | some ⟨_s', names', opq', emitted', InnerExit.broke⟩ =>
      outerExec fuel n (if opq' then [] else rest) [] (insertAll masks names') emitted'

/-- Executable mirror of `dirScan`. -/
def dirScanExec (n : Nat) (dr : DirReader) : Option (List String × ScanRet × DirReader) :=
  outerExec (dr.files.length + 1) n dr.files dr.names dr.masks []

/-- Executable mirror of `runCalls`. -/
def runCallsExec : List Nat → DirReader → Option (List String × DirReader)
  | [], dr => some ([], dr)
  | k :: ks, dr =>
    match dirScanExec k dr with
    | none => none
    | some (e, _, dr') =>
      match runCallsExec ks dr' with
      | none => none
      | some (es, drf) => some (e ++ es, drf)

theorem innerExec_eq (n : Nat) (masks : List String) (s : DirStream)
    (names : List String) (opq : Bool) (emitted : List String)
    (h : n = 0 ∨ emitted.length < n) (fuel : Nat) (hf : s.entries.length < fuel) :
    innerExec fuel n masks s names opq emitted =
      some (scanInner n masks s names opq emitted h) := by
  refine scanInner.induct n masks
    (motive := fun s names opq emitted h =>
      ∀ fuel, s.entries.length < fuel →
        innerExec fuel n masks s names opq emitted =
          some (scanInner n masks s names opq emitted h))
    ?_ ?_ ?_ s names opq emitted h fuel hf
  · intro s names opq emitted h batch rerr s' hrd names' opq' emitted' hpe hbreak fuel hf
    cases fuel with
    | zero => exact absurd hf (by omega)
    | succ fuel =>
      rw [scanInner_eq_broke n masks s names opq emitted h batch rerr s' names' opq' emitted'
        hrd hpe hbreak]
      rw [innerExec, hrd]
      simp only [hpe, if_pos hbreak]
  · intro s names opq emitted h batch rerr s' hrd names' opq' emitted' hpe hbreak hret fuel hf
    cases fuel with
    | zero => exact absurd hf (by omega)
    | succ fuel =>
      rw [scanInner_eq_ret n masks s names opq emitted h batch rerr s' names' opq' emitted'
        hrd hpe hbreak hret]
      rw [innerExec, hrd]
      simp only [hpe, if_neg hbreak, if_pos hret]
  · intro s names opq emitted h batch rerr s' hrd names' opq' emitted' hpe hbreak hret ih fuel hf
    cases fuel with
    | zero => exact absurd hf (by omega)
    | succ fuel =>
      rw [scanInner_eq_step n masks s names opq emitted h batch rerr s' names' opq' emitted'
        hrd hpe hbreak hret
        (budget_step n masks s names opq emitted h batch rerr s' names' opq' emitted'
          hrd hpe hbreak hret)]
      rw [innerExec, hrd]
      simp only [hpe, if_neg hbreak, if_neg hret]
      have hnone : rerr = none := by
        by_contra hh
        exact hret (Or.inr hh)
      have hn0 : n ≠ 0 := fun hh => hbreak (Or.inl hh)
      have hlt : emitted.length < n := h.resolve_left hn0
      have hc : 0 < (n : Int) - emitted.length := by omega
      have hstep := readDir_step s ((n : Int) - emitted.length) hc (by rw [hrd, hnone])
      rw [hrd] at hstep
      simp only at hstep
      exact ih fuel (by omega)

theorem outerExec_eq (n : Nat) (files : List DirStream) (names masks emitted : List String)
    (h : n = 0 ∨ emitted.length < n) (fuel : Nat) (hf : files.length < fuel) :
    outerExec fuel n files names masks emitted =
      some (scanOuter n files names masks emitted h) := by
  refine scanOuter.induct n
    (motive := fun files names masks emitted h =>
      ∀ fuel, files.length < fuel →
        outerExec fuel n files names masks emitted =
          some (scanOuter n files names masks emitted h))
    ?_ ?_ ?_ files names masks emitted h fuel hf
  · intro names masks emitted h fuel hf
    rw [scanOuter_nil]
    cases fuel with
    | zero => rfl
    | succ fuel => rfl
  · intro names masks emitted h s rest s' names' opq' emitted' r hout fuel hf
    cases fuel with
    | zero => exact absurd hf (by omega)
    | succ fuel =>
      rw [scanOuter_cons_ret n s rest names masks emitted h s' names' opq' emitted' r hout]
      rw [outerExec, innerExec_eq n masks s names false emitted h (s.entries.length + 1)
        (by omega), hout]
  · intro names masks emitted h s rest s' names' opq' emitted' hout ih fuel hf
    cases fuel with
    | zero => exact absurd hf (by omega)
    | succ fuel =>
      have hbnd : n = 0 ∨ emitted'.length < n := by
        have hb := scanInner_broke_bound n masks s names false emitted h
        rw [hout] at hb
        exact hb rfl
      rw [scanOuter_cons_broke n s rest names masks emitted h s' names' opq' emitted' hout hbnd]
      rw [outerExec, innerExec_eq n masks s names false emitted h (s.entries.length + 1)
        (by omega), hout]
      have hlen : (if opq' then [] else rest).length < fuel := by
        simp only [List.length_cons] at hf
        cases opq' <;> simp <;> omega
      exact ih fuel hlen

theorem dirScanExec_eq (n : Nat) (dr : DirReader) :
    dirScanExec n dr = some (dirScan n dr) :=
  outerExec_eq n dr.files dr.names dr.masks [] (by simp; omega) _ (by omega)

theorem runCallsExec_eq (ks : List Nat) (dr : DirReader) :
    runCallsExec ks dr = some (runCalls ks dr) := by
  induction ks generalizing dr with
  | nil => rfl
  | cons k ks ih =>
    rw [runCallsExec, dirScanExec_eq k dr, runCalls_cons]
    simp only
    rw [ih (dirScan k dr).2.2]

theorem dirScan_of_exec (n : Nat) (dr : DirReader) (v : List String × ScanRet × DirReader)
    (hv : dirScanExec n dr = some v) : dirScan n dr = v := by
  have he := dirScanExec_eq n dr
  rw [hv] at he
  exact (Option.some_inj.mp he).symm

theorem runCalls_of_exec (ks : List Nat) (dr : DirReader) (v : List String × DirReader)
    (hv : runCallsExec ks dr = some v) : runCalls ks dr = v := by
  have he := runCallsExec_eq ks dr
  rw [hv] at he
  exact (Option.some_inj.mp he).symm

/-- A layer whose root contains the single directory `a` (used by witnesses). -/
def dirLayer : Layer :=
  ⟨fun s => if s = "a" then .ok true else .error .notExist,
   fun _ => .ok 10, fun _ => .error .invalid, fun _ => .ok 0⟩

/-- A layer in which `a` is a regular file (used by witnesses). -/
def fileLayer : Layer :=
  ⟨fun s => if s = "a" then .ok false else .error .notExist,
   fun _ => .ok 11, fun _ => .error .invalid, fun _ => .ok 1⟩

/-- A layer whose every operation fails with a non-not-exist error (used by
witnesses). -/
def errLayer : Layer :=
  ⟨fun _ => .error (.other 3), fun _ => .error (.other 5), fun _ => .error (.other 3),
   fun _ => .ok 2⟩

/-- A layer that stats like `dirLayer` but fails every open (used by
witnesses). -/
def failOpenLayer : Layer :=
  ⟨fun s => if s = "a" then .ok true else .error .notExist,
   fun _ => .error (.other 5), fun _ => .error .invalid, fun _ => .ok 3⟩

/-- C1: during visibility resolution, at any path prefix `p`, when the
candidate scan reaches a layer `l` in which `p` exists but is not a
directory — the layers `ks` kept so far at this level all being directories
without whiteout markers — then `l` and every lower-priority layer `ls` are
dropped from the visible set, except that if `l` is the topmost remaining
candidate (`ks = []`) it is kept as the sole visible layer; and the result
does not depend on the lower layers at all, so no lower layer's content
under a path shadowed by a higher non-directory is ever visible. -/
theorem c1_nondir_shadowing (p w1 wAll : String) (ks : List Layer) (l : Layer)
    (ls ls' : List Layer)
    (hks : ∀ k ∈ ks, k.stat p = Except.ok true ∧ hasOneOf k [w1, wAll] = Except.ok false)
    (hl : l.stat p = Except.ok false) :
    scanLayers p w1 wAll (ks ++ l :: ls) true = .ok (if ks.isEmpty then [l] else ks) ∧
    scanLayers p w1 wAll (ks ++ l :: ls) true = scanLayers p w1 wAll (ks ++ l :: ls') true := by
  refine ⟨scanLayers_nondir p w1 wAll ks l ls hks hl, ?_⟩
  rw [scanLayers_nondir p w1 wAll ks l ls hks hl, scanLayers_nondir p w1 wAll ks l ls' hks hl]

theorem c1_nondir_shadowing_witness :
    scanLayers "a" ".wh.a" ".wh..wh..opq" ([dirLayer] ++ fileLayer :: [errLayer]) true =
      .ok [dirLayer] := by
  have h := (c1_nondir_shadowing "a" ".wh.a" ".wh..wh..opq" [dirLayer] fileLayer [errLayer] []
    (by
      intro k hk
      simp only [List.mem_singleton] at hk
      subst hk
      exact ⟨rfl, rfl⟩)
    rfl).1
  simpa using h

/-- C6: if opening the file in the `k`-th visible layer fails while all the
layers before it opened successfully, `Open` closes every handle it had
already opened before returning the error, returns no `CompositeFile`, and
on a fully successful open closes nothing. -/
theorem layerFSOpen_ok (layers : List Layer) (name : String) (vis : List Layer)
    (hl : lookup layers "open" name = .ok vis) :
    layerFSOpen layers name =
      (match openLoop name vis [] with
       | (some e, acc) => ⟨.error (.layerError e), acc⟩
       | (none, acc) => ⟨.ok acc, []⟩) := by
  rw [layerFSOpen, hl]

theorem c6_open_cleanup (layers : List Layer) (name : String) (vis : List Layer)
    (k : Nat) (e : FsError) (hl : lookup layers "open" name = .ok vis)
    (hk : k < vis.length)
    (hfail : (vis.get ⟨k, hk⟩).openFile name = .error e)
    (hpre : ∀ i (hi : i < k), ((vis.get ⟨i, Nat.lt_trans hi hk⟩).openFile name).isOk = true) :
    (layerFSOpen layers name).result = .error (.layerError e) ∧
    (layerFSOpen layers name).closed =
      (vis.take k).filterMap (fun l => (l.openFile name).toOption) ∧
    ∀ (ls2 : List Layer) (nm2 : String) (fds : List Nat),
      (layerFSOpen ls2 nm2).result = .ok fds → (layerFSOpen ls2 nm2).closed = [] := by
  have hol := openLoop_fail name vis k hk e [] hfail hpre
  rw [List.nil_append] at hol
  refine ⟨?_, ?_, ?_⟩
  · rw [layerFSOpen_ok layers name vis hl, hol]
  · rw [layerFSOpen_ok layers name vis hl, hol]
  · intro ls2 nm2 fds hres
    cases hlk : lookup ls2 "open" nm2 with
    | error e2 =>
      rw [layerFSOpen, hlk] at hres
      exact Except.noConfusion hres
    | ok vis2 =>
      rw [layerFSOpen_ok ls2 nm2 vis2 hlk] at hres ⊢
      rcases holp : openLoop nm2 vis2 [] with ⟨o, acc⟩
      rw [holp] at hres
      cases o with
      | none => rfl
      | some e2 => exact Except.noConfusion hres

theorem c6_open_cleanup_witness :
    (layerFSOpen [dirLayer, failOpenLayer] "a").result = .error (.layerError (.other 5)) ∧
    (layerFSOpen [dirLayer, failOpenLayer] "a").closed = [10] := by
  have h := c6_open_cleanup [dirLayer, failOpenLayer] "a" [dirLayer, failOpenLayer] 1 (.other 5)
    rfl (by decide) rfl
    (by
      intro i hi
      interval_cases i
      rfl)
  refine ⟨h.1, ?_⟩
  rw [h.2.1]
  rfl

/-- C7: `Stat` on a file opened through the stack returns the topmost
layer's metadata unchanged except that the owner/group/other write
permission bits (`0o222 = 146`) are cleared: the masked mode has no write
bit set, and every other bit of the underlying 32-bit mode word is
preserved. -/
theorem c7_stat_readonly (s : FileInfo) (hm : s.mode < 2 ^ 32) :
    layerFileStat (.ok s) = .ok ⟨layerInfoMode s.mode, s.isDir⟩ ∧
    layerInfoMode s.mode &&& 146 = 0 ∧
    layerInfoMode s.mode ||| (s.mode &&& 146) = s.mode :=
  ⟨rfl, mode_mask_clears _, mode_mask_keeps _ hm⟩

theorem c7_stat_readonly_witness :
    layerFileStat (.ok ⟨511, false⟩) = .ok ⟨365, false⟩ ∧
      layerInfoMode 511 &&& 146 = 0 := by
  have h := c7_stat_readonly ⟨511, false⟩ (by decide)
  refine ⟨?_, h.2.1⟩
  rw [h.1]
  rfl

/-- C9 (counterexample): the claim says an invalid path makes Open, Sub and
ReadLink fail with an Invalid Path error, a category distinct from Not
Found.  On the code, `lookup` rejects the invalid path `"/a"` with
`&fs.PathError{op, name, fs.ErrNotExist}` — the very error value of the Not
Found category (`fs.ErrInvalid` is a different value, used only for
unsupported operations) — so the claimed distinct category does not exist. -/
theorem c9_invalid_path_not_distinct :
    (layerFSOpen [] "/a").result = .error (.pathError "open" "/a" FsError.notExist) ∧
    layerFSSub [] "/a" = .error (.pathError "open" "/a" FsError.notExist) ∧
    layerFSReadLink [] "/a" = .error (.pathError "readlink" "/a" FsError.notExist) ∧
    FsError.notExist ≠ FsError.invalid :=
  ⟨rfl, rfl, rfl, by decide⟩

/-- C9 (amended): for every input path that fails normalization (absolute,
`.`/`..` components, empty components), Open, Sub and ReadLink fail with a
`PathError` carrying `fs.ErrNotExist` — the same error category as Not
Found; no distinct Invalid Path category is produced. -/
theorem c9_invalid_path_amended (layers : List Layer) (op name : String)
    (hv : validPath name = false) :
    lookup layers op name = .error (.pathError op name .notExist) ∧
    (layerFSOpen layers name).result = .error (.pathError "open" name .notExist) ∧
    layerFSSub layers name = .error (.pathError "open" name .notExist) ∧
    layerFSReadLink layers name = .error (.pathError "readlink" name .notExist) := by
  have hl : ∀ op', lookup layers op' name = .error (.pathError op' name .notExist) := by
    intro op'
    rw [lookup, if_pos hv]
  refine ⟨hl op, ?_, ?_, ?_⟩
  · rw [layerFSOpen, hl "open"]
  · rw [layerFSSub, hl "open"]
  · rw [layerFSReadLink, hl "readlink"]

theorem c9_invalid_path_witness :
    lookup [dirLayer] "open" "a/../b" =
      .error (.pathError "open" "a/../b" FsError.notExist) :=
  (c9_invalid_path_amended [dirLayer] "open" "a/../b" (by decide)).1

/-- C8 (counterexample): the claim says any non-not-exist error from an
underlying layer during directory reading aborts the operation and is
surfaced unchanged.  But in `scan`, when the requested count is `0` the
inner loop breaks regardless of the error (layer.go:323), so a layer whose
`ReadDir` fails with a real error (here `other 7`) is silently treated as
exhausted: the unbounded scan returns `nil` (ScanRet.ok), still consults the
lower layer, and the error is never surfaced. -/
theorem c8_unbounded_swallows_error :
    (dirScan 0 ⟨[⟨["a"], some (.other 7)⟩, ⟨["b"], none⟩], [], []⟩).2.1 = ScanRet.ok ∧
    (dirScan 0 ⟨[⟨["a"], some (.other 7)⟩, ⟨["b"], none⟩], [], []⟩).1 = ["a", "b"] := by
  have hz := dirScan_zero ⟨[⟨["a"], some (.other 7)⟩, ⟨["b"], none⟩], [], []⟩
  refine ⟨hz.2.1, ?_⟩
  rw [hz.1]
  decide

/-- C8 (amended): during visibility resolution, a layer whose stat (of the
prefix or of a whiteout-marker path) fails with an error other than
not-exist aborts the lookup immediately with that very error, while
not-exist only removes the layer from candidacy; during directory reading
the same holds for the underlying `ReadDir` only when the requested count is
positive — an exhausted layer's non-EOF error is then surfaced unchanged —
whereas a scan with count `0` (an unbounded `ReadDir`) never fails: the
erroring layer is treated as exhausted and scanning continues below it. -/
theorem c8_error_propagation_amended :
    (∀ (p w1 wAll : String) (l : Layer) (ls : List Layer) (isTop : Bool) (e : FsError),
      l.stat p = .error e → e ≠ .notExist →
        scanLayers p w1 wAll (l :: ls) isTop = .error e) ∧
    (∀ (p w1 wAll : String) (l : Layer) (ls : List Layer) (isTop : Bool),
      l.stat p = .error .notExist →
        scanLayers p w1 wAll (l :: ls) isTop = scanLayers p w1 wAll ls isTop) ∧
    (∀ (p w1 wAll : String) (l : Layer) (ls : List Layer) (isTop : Bool) (e : FsError),
      l.stat p = .ok true → l.stat w1 = .error e → e ≠ .notExist →
        scanLayers p w1 wAll (l :: ls) isTop = .error e) ∧
    (∀ (e : FsError) (rest : List DirStream) (nm masks : List String) (n : Nat), 0 < n →
      dirScan n ⟨⟨[], some e⟩ :: rest, nm, masks⟩ =
        ([], ScanRet.err e, ⟨⟨[], some e⟩ :: rest, nm, masks⟩)) ∧
    (∀ dr : DirReader, (dirScan 0 dr).2.1 = ScanRet.ok) := by
  refine ⟨?_, ?_, ?_, ?_, fun dr => (dirScan_zero dr).2.1⟩
  · intro p w1 wAll l ls isTop e hstat hne
    simp [scanLayers, hstat, hne]
  · intro p w1 wAll l ls isTop hstat
    simp [scanLayers, hstat]
  · intro p w1 wAll l ls isTop e hstat hw1 hne
    simp [scanLayers, hstat, hasOneOf, hw1, hne]
  · intro e rest nm masks n hn
    have hrd : (⟨[], some e⟩ : DirStream).readDir ((n : Int) - ([] : List String).length) =
        (([], some (ReadErr.fserr e)), ⟨[], some e⟩) := by
      rw [DirStream.readDir, if_neg (by simp; omega)]
      simp
    have hin := scanInner_eq_ret n masks ⟨[], some e⟩ nm false [] (by simp; omega)
      [] (some (ReadErr.fserr e)) ⟨[], some e⟩ nm false [] hrd rfl
      (by simp; omega) (Or.inr (by simp))
    have hout := scanOuter_cons_ret n ⟨[], some e⟩ rest nm masks [] (by simp; omega)
      ⟨[], some e⟩ nm false [] (ScanRet.err e)
      (by rw [hin]; rfl)
    exact hout

theorem c8_error_propagation_witness :
    scanLayers "a" ".wh.a" ".wh..wh..opq" [errLayer, dirLayer] true =
      .error (.other 3) := by
  have h := c8_error_propagation_amended.1 "a" ".wh.a" ".wh..wh..opq" errLayer [dirLayer]
    true (.other 3) rfl (by decide)
  exact h

/-- C4: invariants of the directory-merge cursor across any `scan` call:
the durable mask set only grows; a name already in the mask set is never
emitted by the call (so once masked, no lower layer re-exposes it); the
mask set changes only when at least one layer was fully drained and removed
from the cursor (masks are committed only at layer completion); and within
one layer's batch processing the pending names never mask that same layer's
own entries — an unmasked, unmarked entry is always emitted even when the
same layer also contains whiteouts recorded in the pending batch. -/
theorem c4_mask_commit_invariant (n : Nat) (dr : DirReader) :
    (∀ x ∈ dr.masks, x ∈ (dirScan n dr).2.2.masks) ∧
    (∀ x ∈ dr.masks, x ∉ (dirScan n dr).1) ∧
    ((dirScan n dr).2.2.masks ≠ dr.masks →
      (dirScan n dr).2.2.files.length < dr.files.length) ∧
    (∀ (masks nm es : List String) (x : String), x ∈ es → x ∉ masks →
      whMarked x = false → x ∈ (processEntries masks es nm false []).2.2) := by
  have hinv := scanOuter_inv n dr.files dr.names dr.masks [] (by simp; omega)
  refine ⟨hinv.1, ?_, ?_, ?_⟩
  · intro x hx hxe
    have hco := hinv.2.1 x hx hxe
    simp at hco
  · intro hne
    rcases hinv.2.2.2 with heq | hlt
    · exact absurd heq hne
    · exact hlt
  · intro masks nm es x hx hnm hwh
    exact pe_emit_mem masks es nm false [] x hx hnm hwh

theorem c4_mask_commit_invariant_witness :
    "x" ∈ (dirScan 5 ⟨[⟨["y"], none⟩], [], ["x"]⟩).2.2.masks ∧
    "x" ∉ (dirScan 5 ⟨[⟨["y"], none⟩], [], ["x"]⟩).1 :=
  ⟨(c4_mask_commit_invariant 5 ⟨[⟨["y"], none⟩], [], ["x"]⟩).1 "x" (by decide),
   (c4_mask_commit_invariant 5 ⟨[⟨["y"], none⟩], [], ["x"]⟩).2.1 "x" (by decide)⟩

/-- C10: a `ReadDir` call with `n ≤ 0` on a directory opened through the
stack drains all remaining layers (the final cursor has no layer left),
returns every remaining merged entry (the reference merge of the cursor
state), and returns a `nil` error — never `io.EOF`, even when the directory
was already exhausted; conversely `io.EOF` is returned only by a call whose
clamped count `m` is positive and which produced fewer than `m` entries. -/
theorem c10_unbounded_readdir :
    (∀ (n : Int) (dr : DirReader), n ≤ 0 →
      (layerReadDir n dr).2.1 = ScanRet.ok ∧
      (layerReadDir n dr).2.2.files = [] ∧
      (layerReadDir n dr).1 = mergeOf dr) ∧
    (∀ (m : Nat) (dr : DirReader), (dirScan m dr).2.1 = ScanRet.eof →
      0 < m ∧ (dirScan m dr).1.length < m) := by
  constructor
  · intro n dr hn
    have hcl : (if n < 0 then 0 else n.toNat) = 0 := by
      by_cases h0 : n < 0
      · rw [if_pos h0]
      · rw [if_neg h0]
        omega
    have hz := dirScan_zero dr
    rw [layerReadDir, hcl]
    exact ⟨hz.2.1, hz.2.2, hz.1⟩
  · intro m dr heof
    exact scanOuter_eof m dr.files dr.names dr.masks [] (by simp; omega) heof

theorem c10_unbounded_readdir_witness :
    (layerReadDir (-1) ⟨[], [], []⟩).2.1 = ScanRet.ok ∧
    (layerReadDir (-1) ⟨[], [], []⟩).2.2.files = [] :=
  ⟨(c10_unbounded_readdir.1 (-1) ⟨[], [], []⟩ (by omega)).1,
   (c10_unbounded_readdir.1 (-1) ⟨[], [], []⟩ (by omega)).2.1⟩

/-- C2: in a merged directory listing over error-free layers, an entry
`.wh.x` contributed by a layer (not itself masked from above, and not the
opaque marker) removes `x` from everything the lower-priority layers emit:
the unbounded drain splits into the contributing layer's own emissions
followed by the lower layers' part, `x` never occurs in that lower part,
and no `.wh.`-marked name — `.wh.x` itself included — is ever emitted. -/
theorem c2_single_whiteout (masks nm : List String) (x : String) (es : List String)
    (restE : List (List String))
    (hin : (whiteoutMark ++ x) ∈ es) (hnm : (whiteoutMark ++ x) ∉ masks)
    (hno : whiteoutMark ++ x ≠ whiteoutOpaque) :
    (dirScan 0 ⟨(es :: restE).map (fun es => ⟨es, none⟩), nm, masks⟩).1 =
      (processEntries masks es nm false []).2.2 ++
        (if (processEntries masks es nm false []).2.1 then []
         else mergeNames (insertAll masks (processEntries masks es nm false []).1) [] restE) ∧
    x ∉ (if (processEntries masks es nm false []).2.1 then []
         else mergeNames (insertAll masks (processEntries masks es nm false []).1) [] restE) ∧
    ∀ y ∈ (dirScan 0 ⟨(es :: restE).map (fun es => ⟨es, none⟩), nm, masks⟩).1,
      whMarked y = false := by
  have hz := dirScan_zero ⟨(es :: restE).map (fun es => ⟨es, none⟩), nm, masks⟩
  have hm : mergeOf ⟨(es :: restE).map (fun es => ⟨es, none⟩), nm, masks⟩ =
      mergeNames masks nm (es :: restE) := by
    rw [mergeOf]
    simp only [List.map_map]
    rw [show (DirStream.entries ∘ fun es : List String =>
      ({ entries := es, terr := none } : DirStream)) = id from rfl, List.map_id]
  refine ⟨?_, ?_, ?_⟩
  · rw [hz.1, hm, mergeNames_cons]
  · by_cases hq : (processEntries masks es nm false []).2.1
    · rw [if_pos hq]
      simp
    · rw [if_neg hq]
      have hx : x ∈ insertAll masks (processEntries masks es nm false []).1 :=
        (mem_insertAll ..).mpr (Or.inr (pe_wh_pending masks es nm false [] x hin hnm hno))
      exact merge_masked restE _ [] x hx
  · intro y hy
    rw [hz.1, hm] at hy
    exact merge_no_wh _ _ _ y hy

theorem c2_single_whiteout_witness :
    "x" ∉ (if (processEntries [] [".wh.x", "y"] [] false []).2.1 then []
      else mergeNames (insertAll [] (processEntries [] [".wh.x", "y"] [] false []).1)
        [] [["x"]]) :=
  (c2_single_whiteout [] [] "x" [".wh.x", "y"] [["x"]] (by decide) (by decide)
    (by decide)).2.1

/-- C3: when a layer's directory contains the opaque marker `.wh..wh..opq`
(not itself masked from above), the layer-merge truncation flag is set, the
unbounded merged listing over that layer and any lower layers equals the
listing over that layer alone — no lower-priority layer contributes any
entry, while the current layer's own remaining entries stay visible — and
the marker itself is never emitted. -/
theorem c3_opaque_whiteout (masks nm : List String) (es : List String)
    (restE : List (List String))
    (hin : whiteoutOpaque ∈ es) (hnm : whiteoutOpaque ∉ masks) :
    (processEntries masks es nm false []).2.1 = true ∧
    (dirScan 0 ⟨(es :: restE).map (fun es => ⟨es, none⟩), nm, masks⟩).1 =
      (dirScan 0 ⟨[⟨es, none⟩], nm, masks⟩).1 ∧
    whiteoutOpaque ∉ (dirScan 0 ⟨(es :: restE).map (fun es => ⟨es, none⟩), nm, masks⟩).1 := by
  have hq := pe_opq_true masks es nm false [] hin hnm
  have hz := dirScan_zero ⟨(es :: restE).map (fun es => ⟨es, none⟩), nm, masks⟩
  have hz1 := dirScan_zero ⟨[⟨es, none⟩], nm, masks⟩
  have hm : mergeOf ⟨(es :: restE).map (fun es => ⟨es, none⟩), nm, masks⟩ =
      mergeNames masks nm (es :: restE) := by
    rw [mergeOf]
    simp only [List.map_map]
    rw [show (DirStream.entries ∘ fun es : List String =>
      ({ entries := es, terr := none } : DirStream)) = id from rfl, List.map_id]
  have hm1 : mergeOf ⟨[⟨es, none⟩], nm, masks⟩ = mergeNames masks nm [es] := rfl
  refine ⟨hq, ?_, ?_⟩
  · rw [hz.1, hz1.1, hm, hm1, mergeNames_cons, mergeNames_cons, if_pos hq, if_pos hq]
  · intro hy
    rw [hz.1, hm] at hy
    have := merge_no_wh _ _ _ _ hy
    rw [show whMarked whiteoutOpaque = true from by decide] at this
    exact Bool.noConfusion this

theorem c3_opaque_whiteout_witness :
    (processEntries [] ["e1", ".wh..wh..opq", "e2"] [] false []).2.1 = true ∧
    (dirScan 0 ⟨(["e1", ".wh..wh..opq", "e2"] :: [["low"]]).map (fun es => ⟨es, none⟩),
        [], []⟩).1 =
      (dirScan 0 ⟨[⟨["e1", ".wh..wh..opq", "e2"], none⟩], [], []⟩).1 := by
  have h := c3_opaque_whiteout [] [] ["e1", ".wh..wh..opq", "e2"] [["low"]]
    (by decide) (by decide)
  exact ⟨h.1, h.2.1⟩

/-- C5: for any sequence of `ReadDir` calls with positive bounded counts
that, in aggregate, exhausts the directory (the final cursor has no layer
left), the concatenation of the returned batches is exactly — same names,
same multiplicities, no duplicates added and no omissions — the listing a
single unbounded `ReadDir` call returns on a fresh cursor over the same
layers. -/
theorem c5_readdir_resumable (ks : List Nat) (dr : DirReader)
    (_hpos : ∀ k ∈ ks, 0 < k) (hex : (runCalls ks dr).2.files = []) :
    (runCalls ks dr).1 = (dirScan 0 dr).1 := by
  have h1 := runCalls_merge ks dr
  rw [mergeOf_empty _ hex, List.append_nil] at h1
  rw [h1, (dirScan_zero dr).1]

theorem c5_readdir_resumable_witness :
    (runCalls [1, 1, 1, 1] ⟨[⟨["a", ".wh.b", "c"], none⟩, ⟨["b", "d"], none⟩], [], []⟩).1 =
      (dirScan 0 ⟨[⟨["a", ".wh.b", "c"], none⟩, ⟨["b", "d"], none⟩], [], []⟩).1 :=
  c5_readdir_resumable [1, 1, 1, 1] ⟨[⟨["a", ".wh.b", "c"], none⟩, ⟨["b", "d"], none⟩], [], []⟩
    (by decide)
    (by
      have h := runCalls_of_exec [1, 1, 1, 1]
        ⟨[⟨["a", ".wh.b", "c"], none⟩, ⟨["b", "d"], none⟩], [], []⟩
        (["a", "c", "d"], ⟨[], [], ["a", "b", "c", "d"]⟩) (by decide)
      rw [h])
